import Mathlib

/-!
# Scope and namespace core of the PHP `ast` package (`ast/scope.go`)

A shallow embedding of `ast/scope.go`.  Go objects that are reached through
pointers live in typed heaps (one list per struct type, the address of an
object being its index), so that aliasing and in-place mutation are visible.
Operations that can hit a Go run-time panic (nil dereference, write to a nil
map) return `Option`, with `none` standing for the panic.

The `Type` lattice, the `Variable` node and the helpers `Static` and
`EvaluatesTo` are declared in other files of the package; they are taken as
parameters (`T`, `Union`, `Unknown`, `Expr`, `Static`, `EvaluatesTo`).
-/

namespace PhpAst

/-! ## Pointers, heaps and Go maps -/

/-- A Go pointer: `none` is `nil`, `some a` is the address `a` in the heap of the pointee type. -/
abbrev Ptr := Option Nat

/-- Reading through a pointer; `none` when the pointer is nil (or does not address an object). -/
def deref {α : Type} (heap : List α) : Ptr → Option α
  | none => none
  | some a => heap[a]?

/-- Writing through a pointer (`*p = x`); `none` when the pointer cannot be dereferenced. -/
def store {α : Type} (heap : List α) (p : Ptr) (x : α) : Option (List α) :=
  match p with
  | none => none
  | some a => if a < heap.length then some (heap.set a x) else none

/-- Allocation of a new object (`&T{...}`): the object is placed at the next free address. -/
def alloc {α : Type} (heap : List α) (x : α) : List α × Ptr :=
  (heap ++ [x], some heap.length)

/-- What a string-keyed Go map holds: its entries, each key at most once. -/
abbrev Entries (V : Type) := List (String × V)

/-- The value stored under key `k`, if any. -/
def Entries.lookup {V : Type} : Entries V → String → Option V
  | [], _ => none
  | (k', v) :: rest, k => if k' = k then some v else Entries.lookup rest k

/-- Entry assignment: the value under `k` is replaced, or a new entry is added. -/
def Entries.assign {V : Type} : Entries V → String → V → Entries V
  | [], k, v => [(k, v)]
  | (k', v') :: rest, k, v =>
    if k' = k then (k, v) :: rest else (k', v') :: Entries.assign rest k v

/-- The keys of the entries. -/
def Entries.keys {V : Type} (m : Entries V) : List String := m.map Prod.fst

/-- A Go map with string keys: `none` is the nil map, `some es` an initialised map. -/
abbrev GoMap (V : Type) := Option (Entries V)

/-- The comma-ok read `v, ok := m[k]`: reading a nil map finds nothing. -/
def GoMap.get {V : Type} (m : GoMap V) (k : String) : Option V :=
  match m with
  | none => none
  | some es => es.lookup k

/-- The plain read `m[k]`, which yields the zero value when the key is absent. -/
def GoMap.index {V : Type} (m : GoMap V) (k : String) (zero : V) : V :=
  match m.get k with
  | some v => v
  | none => zero

/-- The write `m[k] = v`; writing to a nil map panics (`none`). -/
def GoMap.set {V : Type} (m : GoMap V) (k : String) (v : V) : Option (GoMap V) :=
  match m with
  | none => none
  | some es => some (some (es.assign k v))

/-- The number of entries, `len(m)`. -/
def GoMap.size {V : Type} (m : GoMap V) : Nat :=
  match m with
  | none => 0
  | some es => es.length

/-- The keys of a map; a nil map has none. -/
def GoMap.keys {V : Type} (m : GoMap V) : List String :=
  match m with
  | none => []
  | some es => es.keys

/-! ## The data model -/

/-- The `Variable` node as far as `scope.go` uses it: the `Name` expression and the mutable `Type`. -/
structure Variable (Expr T : Type) where
  Name : Expr
  Type_ : T
deriving DecidableEq, Repr

/-- The struct `VariableGroup`: `References []*Variable` and `Type Type`. -/
structure VariableGroup (T : Type) where
  References : List Ptr
  Type_ : T
deriving DecidableEq, Repr

/-- The struct `SuperGlobalScope`: `Identifiers map[string]*Variable`. -/
structure SuperGlobalScope where
  Identifiers : GoMap Ptr
deriving DecidableEq, Repr

/-- The struct `GlobalScope`, which embeds a `*Namespace` and a `*Scope`. -/
structure GlobalScope where
  Namespace : Ptr
  Scope : Ptr
deriving DecidableEq, Repr

/-- The struct `Scope`. -/
structure Scope (T : Type) where
  Identifiers : GoMap (VariableGroup T)
  DynamicVariables : List Ptr
  EnclosingScope : Ptr
  GlobalScope : Ptr
  SuperGlobalScope : Ptr
deriving DecidableEq, Repr

/-- The struct `Namespace`; `Stmt` stands for the `Statement` interface values. -/
structure Namespace (Stmt : Type) where
  Name : String
  ClassesAndInterfaces : GoMap Stmt
  Constants : GoMap (List Ptr)
  Functions : GoMap Ptr
deriving DecidableEq, Repr

/-- The struct `FileSet`, which embeds a `*Scope`. -/
structure FileSet where
  Files : GoMap Ptr
  Namespaces : GoMap Ptr
  GlobalNamespace : Ptr
  Scope : Ptr
deriving DecidableEq, Repr

/-- The typed heaps of the objects that `scope.go` reaches through pointers. -/
structure Heap (Expr T Stmt : Type) where
  Variables : List (Variable Expr T)
  Scopes : List (Scope T)
  GlobalScopes : List GlobalScope
  SuperGlobalScopes : List SuperGlobalScope
  Namespaces : List (Namespace Stmt)
  FileSets : List FileSet
deriving DecidableEq, Repr

section Operations

variable {Expr T Stmt : Type}

/-! ## Constructors -/

/-- `NewSuperGlobalScope`: `&SuperGlobalScope{map[string]*Variable{}}`. -/
def NewSuperGlobalScope (h : Heap Expr T Stmt) : Heap Expr T Stmt × Ptr :=
  let r := alloc h.SuperGlobalScopes { Identifiers := some [] }
  ({ h with SuperGlobalScopes := r.1 }, r.2)

/-- `NewGlobalScope`: `&GlobalScope{ns, nil}`. -/
def NewGlobalScope (h : Heap Expr T Stmt) (ns : Ptr) : Heap Expr T Stmt × Ptr :=
  let r := alloc h.GlobalScopes { Namespace := ns, Scope := none }
  ({ h with GlobalScopes := r.1 }, r.2)

/-- `NewScope`: a scope with an initialised, empty `Identifiers` map, no dynamic variables, and
the three links as given. -/
def NewScope (h : Heap Expr T Stmt) (parent global superGlobal : Ptr) : Heap Expr T Stmt × Ptr :=
  let r := alloc h.Scopes
    { Identifiers := some [], DynamicVariables := [], EnclosingScope := parent,
      GlobalScope := global, SuperGlobalScope := superGlobal }
  ({ h with Scopes := r.1 }, r.2)

/-- `NewNamespace`: a namespace called `name` with three initialised, empty maps. -/
def NewNamespace (h : Heap Expr T Stmt) (name : String) : Heap Expr T Stmt × Ptr :=
  let r := alloc h.Namespaces
    { Name := name, ClassesAndInterfaces := some [], Constants := some [], Functions := some [] }
  ({ h with Namespaces := r.1 }, r.2)

/-- The field write `gscope.Scope = scope`. In `NewFileSet` the pointer `gscope` has just been
returned by `NewGlobalScope`, so the write cannot fail. -/
def setGlobalScopeScope (gs : List GlobalScope) (gscope scope : Ptr) : List GlobalScope :=
  match deref gs gscope with
  | none => gs
  | some o =>
    match store gs gscope { o with Scope := scope } with
    | none => gs
    | some gs1 => gs1

/-- `NewFileSet`. The superglobal scope is the literal `&SuperGlobalScope{}`, whose map is nil. -/
def NewFileSet (h : Heap Expr T Stmt) : Heap Expr T Stmt × Ptr :=
  let ns := NewNamespace h "/"
  let gscope := NewGlobalScope ns.1 ns.2
  let sg := alloc gscope.1.SuperGlobalScopes { Identifiers := none }
  let h3 : Heap Expr T Stmt := { gscope.1 with SuperGlobalScopes := sg.1 }
  let scope := NewScope h3 none gscope.2 sg.2
  let h5 : Heap Expr T Stmt :=
    { scope.1 with GlobalScopes := setGlobalScopeScope scope.1.GlobalScopes gscope.2 scope.2 }
  let r := alloc h5.FileSets
    { Files := some [], Namespaces := some [], GlobalNamespace := ns.2, Scope := scope.2 }
  ({ h5 with FileSets := r.1 }, r.2)

/-! ## `Scope.Variable` -/

/-- The loop `for _, ref := range vg.References { ref.Type = vg.Type }`. -/
def backpatch (vars : List (Variable Expr T)) : List Ptr → T → Option (List (Variable Expr T))
  | [], _ => some vars
  | ref :: rest, t =>
    match deref vars ref with
    | none => none
    | some x =>
      match store vars ref { x with Type_ := t } with
      | none => none
      | some vars1 => backpatch vars1 rest t

/-- `func (s *Scope) Variable(v *Variable)`. `Static` gives the static name of a name expression
(`Static(v.Name)` and then `static.Value`), `none` when there is none. -/
def Scope.Variable (Static : Expr → Option String) (EvaluatesTo : Variable Expr T → T)
    (Union : T → T → T) (Unknown : T)
    (h : Heap Expr T Stmt) (s v : Ptr) : Option (Heap Expr T Stmt) :=
  match deref h.Variables v with
  | none => none
  | some x =>
    match Static x.Name with
    | none =>
      match deref h.Scopes s with
      | none => none
      | some sc =>
        match store h.Scopes s { sc with DynamicVariables := sc.DynamicVariables ++ [v] } with
        | none => none
        | some scopes => some { h with Scopes := scopes }
    | some name =>
      match deref h.Scopes s with
      | none => none
      | some sc =>
        let vg0 : VariableGroup T :=
          match sc.Identifiers.get name with
          | some g => g
          | none => { References := [], Type_ := Unknown }
        let vg1 : VariableGroup T := { vg0 with Type_ := Union vg0.Type_ (EvaluatesTo x) }
        match backpatch h.Variables vg1.References vg1.Type_ with
        | none => none
        | some vars =>
          let vg2 : VariableGroup T := { vg1 with References := vg1.References ++ [v] }
          match sc.Identifiers.set name vg2 with
          | none => none
          | some ids =>
            match store h.Scopes s { sc with Identifiers := ids } with
            | none => none
            | some scopes => some { h with Variables := vars, Scopes := scopes }

/-- A sequence of `Scope.Variable` calls on the scope `s`, in order. -/
def submitAll (Static : Expr → Option String) (EvaluatesTo : Variable Expr T → T)
    (Union : T → T → T) (Unknown : T)
    (h : Heap Expr T Stmt) (s : Ptr) : List Ptr → Option (Heap Expr T Stmt)
  | [] => some h
  | v :: vs =>
    match Scope.Variable Static EvaluatesTo Union Unknown h s v with
    | none => none
    | some h1 => submitAll Static EvaluatesTo Union Unknown h1 s vs

/-! ## `FileSet.Namespace` -/

/-- `func (f *FileSet) Namespace(name string) *Namespace`: the new heap and the returned pointer. -/
def FileSet.Namespace (h : Heap Expr T Stmt) (f : Ptr) (name : String) :
    Option (Heap Expr T Stmt × Ptr) :=
  match deref h.FileSets f with
  | none => none
  | some fs =>
    match fs.Namespaces.get name with
    | none =>
      let ns := NewNamespace h name
      match fs.Namespaces.set name ns.2 with
      | none => none
      | some reg =>
        match store ns.1.FileSets f { fs with Namespaces := reg } with
        | none => none
        | some fileSets => some ({ ns.1 with FileSets := fileSets }, reg.index name none)
    | some _ => some (h, fs.Namespaces.index name none)

/-- A sequence of `FileSet.Namespace` calls on the file set `f`, in order; the returned pointers
are dropped. -/
def lookupAll (h : Heap Expr T Stmt) (f : Ptr) : List String → Option (Heap Expr T Stmt)
  | [] => some h
  | name :: names =>
    match FileSet.Namespace h f name with
    | none => none
    | some r => lookupAll r.1 f names

end Operations

/-! ## Derived observations used in the statements -/

section Observations

variable {Expr T Stmt : Type}

/-- The `VariableGroup` stored under `name` in the scope `s`, if the scope has one. -/
def groupOf (h : Heap Expr T Stmt) (s : Ptr) (name : String) : Option (VariableGroup T) :=
  match deref h.Scopes s with
  | none => none
  | some sc => sc.Identifiers.get name

/-- The static name of the occurrence behind `v`, if it has one. -/
def nameOf (Static : Expr → Option String) (vars : List (Variable Expr T)) (v : Ptr) :
    Option String :=
  match deref vars v with
  | none => none
  | some x => Static x.Name

/-- The contributions `EvaluatesTo()` of the occurrences `refs`, in order. -/
def contributions (EvaluatesTo : Variable Expr T → T) (vars : List (Variable Expr T))
    (refs : List Ptr) : List T :=
  refs.filterMap (fun p => (deref vars p).map EvaluatesTo)

/-- The `Type` field of the occurrence behind `v`. -/
def typeOf (vars : List (Variable Expr T)) (v : Ptr) : Option T :=
  (deref vars v).map (fun x => x.Type_)

/-- The namespace registry of the file set `f`. -/
def registryOf (h : Heap Expr T Stmt) (f : Ptr) : GoMap Ptr :=
  match deref h.FileSets f with
  | none => none
  | some fs => fs.Namespaces

end Observations

/-! ## The log of a sequence of submissions -/

section SubmissionLog

variable {Expr T Stmt : Type}

/-- One call `Scope.Variable(v)` as it happened: the static name of `v` (if any), the pointer
`v`, and the value `v.EvaluatesTo()` returned in that call. -/
structure Submission (T : Type) where
  name : Option String
  ref : Ptr
  contribution : T
deriving DecidableEq, Repr

/-- The calls of `submitAll`, in order, each with the name it was filed under and the
contribution `EvaluatesTo()` gave when the call was made. The log stops at a call that fails. -/
def submitLog (Static : Expr → Option String) (EvaluatesTo : Variable Expr T → T)
    (Union : T → T → T) (Unknown : T)
    (h : Heap Expr T Stmt) (s : Ptr) : List Ptr → List (Submission T)
  | [] => []
  | v :: vs =>
    match deref h.Variables v with
    | none => []
    | some x =>
      match Scope.Variable Static EvaluatesTo Union Unknown h s v with
      | none => []
      | some h1 =>
        ⟨Static x.Name, v, EvaluatesTo x⟩
          :: submitLog Static EvaluatesTo Union Unknown h1 s vs

/-- The submissions of a log that were made under the static name `k`. -/
def logFor (k : String) (log : List (Submission T)) : List (Submission T) :=
  log.filter (fun e => decide (e.name = some k))

/-- The group `start` after the submissions `entries`: their pointers appended to the
references in order, their contributions joined onto the type from left to right. -/
def joinedGroup (Union : T → T → T) (start : VariableGroup T)
    (entries : List (Submission T)) : VariableGroup T :=
  { References := start.References ++ entries.map (fun e => e.ref)
    Type_ := (entries.map (fun e => e.contribution)).foldl Union start.Type_ }

/-- What the claims say a fresh scope holds for a name, given the submissions made under that
name: no group when there were none, otherwise the group whose `References` are exactly those
occurrences in order and whose `Type` is the join, from `Unknown` on, of their contributions. -/
def expectedGroup (Union : T → T → T) (Unknown : T) (entries : List (Submission T)) :
    Option (VariableGroup T) :=
  match entries with
  | [] => none
  | _ :: _ => some (joinedGroup Union ⟨[], Unknown⟩ entries)

/-- The group of a name after the submissions `entries` made under it, when `old` was stored
for the name before: unchanged without submissions, otherwise `old` (or a new group of type
`Unknown`) extended by them. -/
def groupAfter (Union : T → T → T) (Unknown : T) (old : Option (VariableGroup T))
    (entries : List (Submission T)) : Option (VariableGroup T) :=
  match entries with
  | [] => old
  | _ :: _ => some (joinedGroup Union (old.getD ⟨[], Unknown⟩) entries)

end SubmissionLog

/-! ## Well-formedness of a scope -/

/-- The scope `s` is usable: it is allocated, its `Identifiers` map is initialised, and every
recorded reference addresses a `Variable` (no nil entries). -/
def ScopeValid {Expr T Stmt : Type} (h : Heap Expr T Stmt) (s : Ptr) : Prop :=
  ∃ sc m, deref h.Scopes s = some sc ∧ sc.Identifiers = some m ∧
    ∀ n g, m.lookup n = some g → ∀ p ∈ g.References, (deref h.Variables p).isSome

/-- Two `Variable` heaps hold the same objects up to their mutable `Type` fields. -/
def SameNames {Expr T : Type} (vars vars1 : List (Variable Expr T)) : Prop :=
  ∀ p, (deref vars1 p).map (fun x => x.Name) = (deref vars p).map (fun x => x.Name)

/-- Every reference recorded in a group of the scope `s` carries the static name under which
the group is stored. -/
def RefsNamed {Expr T Stmt : Type} (Static : Expr → Option String) (h : Heap Expr T Stmt)
    (s : Ptr) : Prop :=
  ∀ k g, groupOf h s k = some g → ∀ p ∈ g.References, nameOf Static h.Variables p = some k

/-! ## Well-formedness of a file set -/

/-- The file set `f` is as `NewFileSet` and `FileSet.Namespace` leave it: its registry is
initialised with each key once, `GlobalNamespace` addresses the root namespace `"/"`, and every
registry entry addresses a namespace of its own, allocated after the root and named as its key. -/
def FileSetOK {Expr T Stmt : Type} (h : Heap Expr T Stmt) (f : Ptr) : Prop :=
  ∃ fs m r, deref h.FileSets f = some fs ∧ fs.Namespaces = some m ∧
    fs.GlobalNamespace = some r ∧
    deref h.Namespaces (some r) = some ⟨"/", some [], some [], some []⟩ ∧
    m.keys.Nodup ∧
    (∀ k p, m.lookup k = some p →
      ∃ a ns, p = some a ∧ r < a ∧ deref h.Namespaces p = some ns ∧ ns.Name = k) ∧
    (∀ k1 k2 p, m.lookup k1 = some p → m.lookup k2 = some p → k1 = k2)

/-! ## Scope links and construction sequences -/

section Construction

variable {Expr T Stmt : Type}

/-- The three links of a scope: `EnclosingScope`, `GlobalScope` and `SuperGlobalScope`. -/
def linksOf (sc : Scope T) : Ptr × Ptr × Ptr :=
  (sc.EnclosingScope, sc.GlobalScope, sc.SuperGlobalScope)

/-- Following the `EnclosingScope` links from `s`: the addresses of the scopes met, up to the
empty link; `none` when the fuel runs out first or a link addresses no scope. -/
def enclosingChain (scopes : List (Scope T)) : Nat → Ptr → Option (List Nat)
  | _, none => some []
  | 0, some _ => none
  | fuel + 1, some a =>
    match scopes[a]? with
    | none => none
    | some sc =>
      match enclosingChain scopes fuel sc.EnclosingScope with
      | none => none
      | some rest => some (a :: rest)

/-- The heaps that the functions of `scope.go` build, starting from a heap without scopes. The
parent handed to `NewScope` is nil or a scope that exists. -/
inductive Built : Heap Expr T Stmt → Prop where
  | start (h : Heap Expr T Stmt) (hnone : h.Scopes = []) : Built h
  | newScope (h : Heap Expr T Stmt) (parent global superGlobal : Ptr) (hb : Built h)
      (hparent : parent = none ∨ (deref h.Scopes parent).isSome) :
      Built (NewScope h parent global superGlobal).1
  | newFileSet (h : Heap Expr T Stmt) (hb : Built h) : Built (NewFileSet h).1
  | newGlobalScope (h : Heap Expr T Stmt) (ns : Ptr) (hb : Built h) :
      Built (NewGlobalScope h ns).1
  | newSuperGlobalScope (h : Heap Expr T Stmt) (hb : Built h) : Built (NewSuperGlobalScope h).1
  | newNamespace (h : Heap Expr T Stmt) (name : String) (hb : Built h) :
      Built (NewNamespace h name).1
  | submit (Static : Expr → Option String) (EvaluatesTo : Variable Expr T → T)
      (Union : T → T → T) (Unknown : T) (h h1 : Heap Expr T Stmt) (s v : Ptr) (hb : Built h)
      (hcall : Scope.Variable Static EvaluatesTo Union Unknown h s v = some h1) : Built h1
  | lookup (h h1 : Heap Expr T Stmt) (f p : Ptr) (name : String) (hb : Built h)
      (hcall : FileSet.Namespace h f name = some (h1, p)) : Built h1

/-- Every scope with a parent was allocated after its parent. -/
def ParentsOlder (scopes : List (Scope T)) : Prop :=
  ∀ (a : Nat) (sc : Scope T), scopes[a]? = some sc → ∀ b, sc.EnclosingScope = some b → b < a

/-! ## Constant registration -/

/-- Modelled from the spec: the registration of a constant-defining occurrence in a namespace.
`scope.go` declares the field `Constants map[string][]*Variable` and initialises it, but the
code that writes to it is not part of the file; the spec (section 4.4) has constants registered
by appending the defining occurrence to the ordered sequence at that constant name, never
overwriting, which is `ns.Constants[name] = append(ns.Constants[name], v)`. -/
def registerConstant (h : Heap Expr T Stmt) (ns : Ptr) (name : String) (v : Ptr) :
    Option (Heap Expr T Stmt) :=
  match deref h.Namespaces ns with
  | none => none
  | some o =>
    match o.Constants.set name (o.Constants.index name [] ++ [v]) with
    | none => none
    | some cs =>
      match store h.Namespaces ns { o with Constants := cs } with
      | none => none
      | some namespaces => some { h with Namespaces := namespaces }

end Construction

/-! ## A concrete instance

Types are bit sets (`Union` is bitwise or, `Unknown` the empty set); a name expression is an
identifier or a computed name, and carries what the occurrence contributes. -/

/-- A sample name expression, with the type the occurrence contributes. -/
inductive SampleExpr where
  | ident (name : String) (contributes : Nat)
  | computed (contributes : Nat)
deriving DecidableEq, Repr

/-- The static name of a sample name expression. -/
def sampleStatic : SampleExpr → Option String
  | .ident n _ => some n
  | .computed _ => none

/-- What a sample occurrence contributes. -/
def sampleEvaluatesTo (v : Variable SampleExpr Nat) : Nat :=
  match v.Name with
  | .ident _ c => c
  | .computed c => c

/-- The join of two sample types. -/
def sampleUnion (a b : Nat) : Nat := a ||| b

/-- The sample type `Unknown`. -/
def sampleUnknown : Nat := 0

/-- The sample type `Int`. -/
def sampleInt : Nat := 1

/-- The sample type `String`. -/
def sampleString : Nat := 2

/-- The heaps of the concrete instance. -/
abbrev SampleHeap := Heap SampleExpr Nat Unit

/-- The heap with no objects. -/
def emptyHeap : SampleHeap :=
  { Variables := [], Scopes := [], GlobalScopes := [], SuperGlobalScopes := [],
    Namespaces := [], FileSets := [] }

/-- Two occurrences of `x`, the first contributing `Int`, the second `String`; their own `Type`
fields start as `t0` and `t1`. -/
def twoX (t0 t1 : Nat) : SampleHeap :=
  { emptyHeap with
    Variables := [⟨.ident "x" sampleInt, t0⟩, ⟨.ident "x" sampleString, t1⟩] }

/-- One occurrence whose name is computed from another expression. -/
def oneDynamic : SampleHeap :=
  { emptyHeap with Variables := [⟨.computed sampleInt, sampleUnknown⟩] }

/-- The file set object that `NewFileSet` allocates on the empty heap. -/
def freshFileSet : FileSet :=
  { Files := some [], Namespaces := some [], GlobalNamespace := some 0, Scope := some 0 }

/-- The state after the first occurrence of `x` (contributing `Int`) has been submitted to a
scope: the group of `x` holds that occurrence and has type `Int`. -/
def oneXSubmitted : SampleHeap :=
  { emptyHeap with
    Variables := [⟨.ident "x" sampleInt, sampleInt⟩, ⟨.ident "x" sampleString, sampleString⟩]
    Scopes := [{ Identifiers := some [("x", ⟨[some 0], sampleInt⟩)]
                 DynamicVariables := []
                 EnclosingScope := none
                 GlobalScope := none
                 SuperGlobalScope := none }] }

/-- The program scope of a fresh file set (address 0) and a scope nested in it (address 1). -/
def nestedScopes : SampleHeap :=
  (NewScope (NewFileSet emptyHeap).1 (some 0) (some 0) (some 0)).1

section HeapLemmas

variable {α : Type}

theorem deref_isSome_iff (heap : List α) (p : Ptr) :
    (deref heap p).isSome ↔ ∃ a, p = some a ∧ a < heap.length := by
  cases p with
  | none => simp [deref]
  | some a =>
    simp only [deref, Option.some.injEq, exists_eq_left']
    rw [Option.isSome_iff_exists]
    constructor
    · rintro ⟨x, hx⟩
      exact (List.getElem?_eq_some.mp hx).1
    · intro ha
      exact ⟨heap[a], List.getElem?_eq_getElem ha⟩

theorem deref_some_lt {heap : List α} {a : Nat} {x : α} (hx : deref heap (some a) = some x) :
    a < heap.length := by
  simp only [deref] at hx
  exact (List.getElem?_eq_some.mp hx).1

theorem deref_eq_some_ptr {heap : List α} {p : Ptr} {x : α} (hx : deref heap p = some x) :
    ∃ a, p = some a ∧ a < heap.length ∧ heap[a]? = some x := by
  cases p with
  | none => simp [deref] at hx
  | some a => exact ⟨a, rfl, deref_some_lt hx, hx⟩

theorem store_eq_some {heap : List α} {a : Nat} (ha : a < heap.length) (x : α) :
    store heap (some a) x = some (heap.set a x) := by
  simp [store, ha]

theorem store_of_deref {heap : List α} {p : Ptr} {y : α} (hy : deref heap p = some y) (x : α) :
    ∃ a, p = some a ∧ a < heap.length ∧ store heap p x = some (heap.set a x) := by
  obtain ⟨a, rfl, ha, -⟩ := deref_eq_some_ptr hy
  exact ⟨a, rfl, ha, store_eq_some ha x⟩

theorem deref_set (heap : List α) (a : Nat) (x : α) (q : Ptr) :
    deref (heap.set a x) q
      = if q = some a then (if a < heap.length then some x else none) else deref heap q := by
  cases q with
  | none => simp [deref]
  | some b =>
    simp only [deref, Option.some.injEq]
    by_cases hba : b = a
    · subst hba
      by_cases hb : b < heap.length
      · simp [hb]
      · simp only [hb, if_false, if_true]
        rw [List.getElem?_eq_none]
        simp only [List.length_set]
        omega
    · have hab : ¬ a = b := fun e => hba e.symm
      simp [hba, List.getElem?_set, hab]

theorem deref_append_left {heap : List α} {p : Ptr} {x : α} (hx : deref heap p = some x)
    (ys : List α) : deref (heap ++ ys) p = some x := by
  obtain ⟨a, rfl, ha, hget⟩ := deref_eq_some_ptr hx
  simp only [deref]
  rw [List.getElem?_append_left ha]
  exact hget

theorem deref_alloc (heap : List α) (x : α) : deref (alloc heap x).1 (alloc heap x).2 = some x := by
  simp [alloc, deref]

end HeapLemmas

/-! ## Lemmas on map entries -/

section EntriesLemmas

variable {V : Type}

theorem Entries.lookup_assign_self (m : Entries V) (k : String) (v : V) :
    (m.assign k v).lookup k = some v := by
  induction m with
  | nil => simp [Entries.assign, Entries.lookup]
  | cons e rest ih =>
    obtain ⟨k', v'⟩ := e
    by_cases hk : k' = k
    · simp [Entries.assign, Entries.lookup, hk]
    · simp [Entries.assign, Entries.lookup, hk, ih]

theorem Entries.lookup_assign_ne (m : Entries V) {k k' : String} (v : V) (hne : k' ≠ k) :
    (m.assign k v).lookup k' = m.lookup k' := by
  induction m with
  | nil =>
    have hne' : ¬ k = k' := fun e => hne e.symm
    simp [Entries.assign, Entries.lookup, hne']
  | cons e rest ih =>
    obtain ⟨k1, v1⟩ := e
    by_cases hk : k1 = k
    · subst hk
      have hne' : ¬ k1 = k' := fun e => hne e.symm
      simp [Entries.assign, Entries.lookup, hne']
    · by_cases hk' : k1 = k'
      · subst hk'
        simp [Entries.assign, Entries.lookup, hk]
      · simp [Entries.assign, Entries.lookup, hk, hk', ih]

theorem Entries.lookup_eq_none_iff (m : Entries V) (k : String) :
    m.lookup k = none ↔ k ∉ m.keys := by
  induction m with
  | nil => simp [Entries.lookup, Entries.keys]
  | cons e rest ih =>
    obtain ⟨k1, v1⟩ := e
    by_cases hk : k1 = k
    · simp [Entries.lookup, Entries.keys, hk]
    · have hk' : ¬ k = k1 := fun e => hk e.symm
      simp only [Entries.lookup, hk, if_false, ih]
      simp [Entries.keys, hk']

theorem Entries.assign_of_lookup_none (m : Entries V) {k : String} (v : V)
    (hnone : m.lookup k = none) : m.assign k v = m ++ [(k, v)] := by
  induction m with
  | nil => simp [Entries.assign]
  | cons e rest ih =>
    obtain ⟨k1, v1⟩ := e
    by_cases hk : k1 = k
    · simp [Entries.lookup, hk] at hnone
    · simp only [Entries.lookup, hk, if_false] at hnone
      simp [Entries.assign, hk, ih hnone]

theorem Entries.keys_assign_of_lookup_some (m : Entries V) {k : String} (v w : V)
    (hsome : m.lookup k = some w) : (m.assign k v).keys = m.keys := by
  induction m with
  | nil => simp [Entries.lookup] at hsome
  | cons e rest ih =>
    obtain ⟨k1, v1⟩ := e
    by_cases hk : k1 = k
    · simp [Entries.assign, Entries.keys, hk]
    · simp only [Entries.lookup, hk, if_false] at hsome
      have := ih hsome
      simp only [Entries.keys] at this
      simp [Entries.assign, Entries.keys, hk, this]

theorem Entries.mem_of_lookup_some {m : Entries V} {k : String} {v : V}
    (hsome : m.lookup k = some v) : (k, v) ∈ m := by
  induction m with
  | nil => simp [Entries.lookup] at hsome
  | cons e rest ih =>
    obtain ⟨k1, v1⟩ := e
    by_cases hk : k1 = k
    · simp only [Entries.lookup, hk, if_true, Option.some.injEq] at hsome
      simp [hk, hsome]
    · simp only [Entries.lookup, hk, if_false] at hsome
      exact List.mem_cons_of_mem _ (ih hsome)

end EntriesLemmas

/-! ## Lemmas on the backpatch loop -/

section BackpatchLemmas

variable {Expr T Stmt : Type}

theorem backpatch_spec (vars : List (Variable Expr T)) (refs : List Ptr) (t : T)
    (hvalid : ∀ r ∈ refs, (deref vars r).isSome) :
    ∃ vars1, backpatch vars refs t = some vars1 ∧ vars1.length = vars.length ∧
      ∀ p, deref vars1 p
        = (deref vars p).map (fun x => if p ∈ refs then { x with Type_ := t } else x) := by
  induction refs generalizing vars with
  | nil =>
    refine ⟨vars, rfl, rfl, ?_⟩
    intro p
    simp
  | cons r rest ih =>
    have hr : (deref vars r).isSome := hvalid r (List.mem_cons_self _ _)
    obtain ⟨x, hx⟩ := Option.isSome_iff_exists.mp hr
    obtain ⟨a, rfl, ha, hst⟩ := store_of_deref hx ({ x with Type_ := t } : Variable Expr T)
    have hvalid1 : ∀ q ∈ rest, (deref (vars.set a { x with Type_ := t }) q).isSome := by
      intro q hq
      have hq0 := hvalid q (List.mem_cons_of_mem _ hq)
      rw [deref_set]
      by_cases hqa : q = some a
      · simp [hqa, ha]
      · simpa [hqa] using hq0
    obtain ⟨vars1, hbp, hlen, hderef⟩ := ih (vars.set a { x with Type_ := t }) hvalid1
    refine ⟨vars1, ?_, ?_, ?_⟩
    · simp only [backpatch, hx, hst]
      exact hbp
    · simpa using hlen
    · intro p
      rw [hderef p, deref_set]
      by_cases hpa : p = some a
      · subst hpa
        simp [ha, hx]
      · have hne : ¬ some a = p := fun e => hpa e.symm
        simp [hpa, List.mem_cons, hne]

theorem backpatch_isSome_of_some {vars vars1 : List (Variable Expr T)} {refs : List Ptr} {t : T}
    (hbp : backpatch vars refs t = some vars1) : ∀ r ∈ refs, (deref vars r).isSome := by
  induction refs generalizing vars with
  | nil => simp
  | cons r rest ih =>
    intro q hq
    cases hx : deref vars r with
    | none => simp [backpatch, hx] at hbp
    | some x =>
      obtain ⟨a, rfl, ha, hst⟩ := store_of_deref hx ({ x with Type_ := t } : Variable Expr T)
      simp only [backpatch, hx, hst] at hbp
      rcases List.mem_cons.mp hq with rfl | hq
      · simp [hx]
      · have := ih hbp q hq
        rw [deref_set] at this
        by_cases hqa : q = some a
        · subst hqa
          simp [hx]
        · simpa [hqa] using this

end BackpatchLemmas

/-! ## One call of `Scope.Variable` -/

section VariableStep

variable {Expr T Stmt : Type}

theorem variable_dynamic_step (Static : Expr → Option String)
    (EvaluatesTo : Variable Expr T → T) (Union : T → T → T) (Unknown : T)
    {h : Heap Expr T Stmt} {s v : Ptr} {x : Variable Expr T} {sc : Scope T}
    (hv : deref h.Variables v = some x) (hdyn : Static x.Name = none)
    (hs : deref h.Scopes s = some sc) :
    ∃ a, s = some a ∧ a < h.Scopes.length ∧
      Scope.Variable Static EvaluatesTo Union Unknown h s v
        = some { h with
            Scopes := h.Scopes.set a
              { sc with DynamicVariables := sc.DynamicVariables ++ [v] } } := by
  obtain ⟨a, rfl, ha, hst⟩ :=
    store_of_deref hs ({ sc with DynamicVariables := sc.DynamicVariables ++ [v] } : Scope T)
  refine ⟨a, rfl, ha, ?_⟩
  simp only [Scope.Variable, hv, hdyn, hs, hst]

theorem variable_static_step (Static : Expr → Option String)
    (EvaluatesTo : Variable Expr T → T) (Union : T → T → T) (Unknown : T)
    {h : Heap Expr T Stmt} {s v : Ptr} {x : Variable Expr T} {sc : Scope T}
    {m : Entries (VariableGroup T)} {n : String}
    (hv : deref h.Variables v = some x) (hn : Static x.Name = some n)
    (hs : deref h.Scopes s = some sc) (hm : sc.Identifiers = some m)
    (hrefs : ∀ p ∈ ((m.lookup n).getD ⟨[], Unknown⟩).References, (deref h.Variables p).isSome) :
    ∃ a vars1, s = some a ∧ a < h.Scopes.length ∧ vars1.length = h.Variables.length ∧
      (∀ p, deref vars1 p = (deref h.Variables p).map (fun y =>
        if p ∈ ((m.lookup n).getD ⟨[], Unknown⟩).References
        then { y with Type_ := Union ((m.lookup n).getD ⟨[], Unknown⟩).Type_ (EvaluatesTo x) }
        else y)) ∧
      Scope.Variable Static EvaluatesTo Union Unknown h s v
        = some { h with
            Variables := vars1
            Scopes := h.Scopes.set a
              { sc with Identifiers := some (m.assign n
                  ⟨((m.lookup n).getD ⟨[], Unknown⟩).References ++ [v],
                   Union ((m.lookup n).getD ⟨[], Unknown⟩).Type_ (EvaluatesTo x)⟩) } } := by
  obtain ⟨vars1, hbp, hlen, hderef⟩ := backpatch_spec h.Variables
    ((m.lookup n).getD ⟨[], Unknown⟩).References
    (Union ((m.lookup n).getD ⟨[], Unknown⟩).Type_ (EvaluatesTo x)) hrefs
  obtain ⟨a, rfl, ha, hst⟩ := store_of_deref hs
    ({ sc with Identifiers := some (m.assign n
        ⟨((m.lookup n).getD ⟨[], Unknown⟩).References ++ [v],
         Union ((m.lookup n).getD ⟨[], Unknown⟩).Type_ (EvaluatesTo x)⟩) } : Scope T)
  refine ⟨a, vars1, rfl, ha, hlen, hderef, ?_⟩
  cases hlk : m.lookup n with
  | none =>
    simp only [hlk, Option.getD_none] at hbp hst
    simp only [Scope.Variable, hv, hn, hs, hm, GoMap.get, GoMap.set, hlk, hbp, hst]
    rfl
  | some g =>
    simp only [hlk, Option.getD_some] at hbp hst
    simp only [Scope.Variable, hv, hn, hs, hm, GoMap.get, GoMap.set, hlk, hbp, hst]
    rfl

end VariableStep

/-! ## Effect of one call on a usable scope -/

section VariableEffect

variable {Expr T Stmt : Type}

theorem SameNames.refl (vars : List (Variable Expr T)) : SameNames vars vars := fun _ => rfl

theorem SameNames.trans {v1 v2 v3 : List (Variable Expr T)} (h12 : SameNames v1 v2)
    (h23 : SameNames v2 v3) : SameNames v1 v3 := fun p => (h23 p).trans (h12 p)

theorem SameNames.isSome {v1 v2 : List (Variable Expr T)} (h12 : SameNames v1 v2) (p : Ptr) :
    (deref v2 p).isSome = (deref v1 p).isSome := by
  have := congrArg Option.isSome (h12 p)
  simpa using this

theorem SameNames.nameOf {v1 v2 : List (Variable Expr T)} (h12 : SameNames v1 v2)
    (Static : Expr → Option String) (p : Ptr) : nameOf Static v2 p = nameOf Static v1 p := by
  have := h12 p
  unfold PhpAst.nameOf
  cases h1 : deref v1 p <;> cases h2 : deref v2 p <;> simp_all

theorem SameNames.evaluatesTo {v1 v2 : List (Variable Expr T)} (h12 : SameNames v1 v2)
    {EvaluatesTo : Variable Expr T → T}
    (hE : ∀ (x : Variable Expr T) (t : T), EvaluatesTo { x with Type_ := t } = EvaluatesTo x)
    (p : Ptr) : (deref v2 p).map EvaluatesTo = (deref v1 p).map EvaluatesTo := by
  have := h12 p
  cases h1 : deref v1 p with
  | none => cases h2 : deref v2 p <;> simp_all
  | some x =>
    cases h2 : deref v2 p with
    | none => simp_all
    | some y =>
      simp only [h1, h2, Option.map_some', Option.some.injEq] at this ⊢
      have hy : y = { x with Type_ := y.Type_ } := by
        cases x; cases y; simp_all
      rw [hy, hE]

theorem SameNames.contributions {v1 v2 : List (Variable Expr T)} (h12 : SameNames v1 v2)
    {EvaluatesTo : Variable Expr T → T}
    (hE : ∀ (x : Variable Expr T) (t : T), EvaluatesTo { x with Type_ := t } = EvaluatesTo x)
    (refs : List Ptr) :
    contributions EvaluatesTo v2 refs = contributions EvaluatesTo v1 refs := by
  unfold PhpAst.contributions
  congr 1
  funext p
  exact h12.evaluatesTo hE p

theorem sameNames_of_deref_map {vars vars1 : List (Variable Expr T)}
    {f : Ptr → Variable Expr T → Variable Expr T} (hf : ∀ p y, (f p y).Name = y.Name)
    (hderef : ∀ p, deref vars1 p = (deref vars p).map (f p)) : SameNames vars vars1 := by
  intro p
  rw [hderef p]
  cases deref vars p with
  | none => rfl
  | some y => simp [hf]

theorem deref_set_self {α : Type} {heap : List α} {a : Nat} (ha : a < heap.length) (x : α) :
    deref (heap.set a x) (some a) = some x := by
  simp [deref_set, ha]

theorem groupOf_set_self {h : Heap Expr T Stmt} {a : Nat} (ha : a < h.Scopes.length)
    (vars : List (Variable Expr T)) (sc : Scope T) (k : String) :
    groupOf ({ h with Variables := vars, Scopes := h.Scopes.set a sc } : Heap Expr T Stmt)
      (some a) k = sc.Identifiers.get k := by
  simp [groupOf, deref_set, ha]

theorem contributions_append (EvaluatesTo : Variable Expr T → T) (vars : List (Variable Expr T))
    (refs refs1 : List Ptr) :
    contributions EvaluatesTo vars (refs ++ refs1)
      = contributions EvaluatesTo vars refs ++ contributions EvaluatesTo vars refs1 := by
  simp [contributions, List.filterMap_append]

theorem contributions_singleton (EvaluatesTo : Variable Expr T → T)
    {vars : List (Variable Expr T)} {v : Ptr} {x : Variable Expr T}
    (hv : deref vars v = some x) : contributions EvaluatesTo vars [v] = [EvaluatesTo x] := by
  simp [contributions, List.filterMap_cons, hv]

/-- One static submission to a usable scope: the call returns, the scope stays usable, only
`Type` fields of the `Variable` heap change, and the group of the name is the old one (or a new
one of type `Unknown`) joined with the contribution and extended by `v`. -/
theorem variable_static_effect (Static : Expr → Option String)
    (EvaluatesTo : Variable Expr T → T) (Union : T → T → T) (Unknown : T)
    {h : Heap Expr T Stmt} {s v : Ptr} {x : Variable Expr T} {n : String}
    (hvalid : ScopeValid h s)
    (hv : deref h.Variables v = some x) (hn : Static x.Name = some n) :
    ∃ h1, Scope.Variable Static EvaluatesTo Union Unknown h s v = some h1 ∧
      ScopeValid h1 s ∧ SameNames h.Variables h1.Variables ∧
      (∀ k, groupOf h1 s k =
        if k = n then
          some ⟨((groupOf h s n).getD ⟨[], Unknown⟩).References ++ [v],
                Union ((groupOf h s n).getD ⟨[], Unknown⟩).Type_ (EvaluatesTo x)⟩
        else groupOf h s k) ∧
      (∀ p, typeOf h1.Variables p =
        if p ∈ ((groupOf h s n).getD ⟨[], Unknown⟩).References then
          (typeOf h.Variables p).map
            (fun _ => Union ((groupOf h s n).getD ⟨[], Unknown⟩).Type_ (EvaluatesTo x))
        else typeOf h.Variables p) ∧
      h1.Scopes.length = h.Scopes.length ∧
      (∀ q, q ≠ s → deref h1.Scopes q = deref h.Scopes q) ∧
      h1.GlobalScopes = h.GlobalScopes ∧ h1.SuperGlobalScopes = h.SuperGlobalScopes ∧
      h1.Namespaces = h.Namespaces ∧ h1.FileSets = h.FileSets := by
  obtain ⟨sc, m, hs, hm, hrefs⟩ := hvalid
  have hg : groupOf h s n = m.lookup n := by simp [groupOf, hs, hm, GoMap.get]
  have hold : ∀ p ∈ ((m.lookup n).getD ⟨[], Unknown⟩).References,
      (deref h.Variables p).isSome := by
    intro p hp
    cases hlk : m.lookup n with
    | none => simp [hlk] at hp
    | some g =>
      simp only [hlk, Option.getD_some] at hp
      exact hrefs n g hlk p hp
  obtain ⟨a, vars1, rfl, ha, hlen, hderef, hcall⟩ :=
    variable_static_step Static EvaluatesTo Union Unknown hv hn hs hm hold
  have hsame : SameNames h.Variables vars1 :=
    sameNames_of_deref_map (fun _ _ => by split <;> rfl) hderef
  refine ⟨_, hcall, ?_, hsame, ?_, ?_, ?_, ?_, rfl, rfl, rfl, rfl⟩
  · refine ⟨_, _, deref_set_self ha _, rfl, ?_⟩
    · intro k g hk p hp
      rw [hsame.isSome]
      by_cases hkn : k = n
      · subst hkn
        rw [Entries.lookup_assign_self] at hk
        cases hk
        rcases List.mem_append.mp hp with hp | hp
        · exact hold p hp
        · simp only [List.mem_singleton] at hp
          subst hp
          simp [hv]
      · rw [Entries.lookup_assign_ne _ _ hkn] at hk
        exact hrefs k g hk p hp
  · intro k
    rw [groupOf_set_self ha, hg]
    by_cases hkn : k = n
    · subst hkn
      simp [GoMap.get, Entries.lookup_assign_self]
    · simp [GoMap.get, Entries.lookup_assign_ne _ _ hkn, hkn, groupOf, hs, hm]
  · intro p
    rw [hg]
    simp only [typeOf, hderef p]
    cases deref h.Variables p with
    | none => simp
    | some y => by_cases hp : p ∈ ((m.lookup n).getD ⟨[], Unknown⟩).References <;> simp [hp]
  · simp
  · intro q hq
    simp [deref_set, hq]

/-- One dynamic submission to an allocated scope: the call returns and only the dynamic list
of that scope changes. -/
theorem variable_dynamic_effect (Static : Expr → Option String)
    (EvaluatesTo : Variable Expr T → T) (Union : T → T → T) (Unknown : T)
    {h : Heap Expr T Stmt} {s v : Ptr} {x : Variable Expr T}
    (hvalid : ScopeValid h s)
    (hv : deref h.Variables v = some x) (hdyn : Static x.Name = none) :
    ∃ h1, Scope.Variable Static EvaluatesTo Union Unknown h s v = some h1 ∧
      ScopeValid h1 s ∧ h1.Variables = h.Variables ∧
      (∀ k, groupOf h1 s k = groupOf h s k) ∧
      h1.Scopes.length = h.Scopes.length ∧
      (∀ q, q ≠ s → deref h1.Scopes q = deref h.Scopes q) ∧
      h1.GlobalScopes = h.GlobalScopes ∧ h1.SuperGlobalScopes = h.SuperGlobalScopes ∧
      h1.Namespaces = h.Namespaces ∧ h1.FileSets = h.FileSets := by
  obtain ⟨sc, m, hs, hm, hrefs⟩ := hvalid
  obtain ⟨a, rfl, ha, hcall⟩ := variable_dynamic_step Static EvaluatesTo Union Unknown hv hdyn hs
  refine ⟨_, hcall, ?_, rfl, ?_, ?_, ?_, rfl, rfl, rfl, rfl⟩
  · exact ⟨_, m, deref_set_self ha _, hm, hrefs⟩
  · intro k
    simp [groupOf, deref_set, ha, hs]
  · simp
  · intro q hq
    simp [deref_set, hq]

end VariableEffect

/-! ## Sequences of submissions -/

section Submissions

variable {Expr T Stmt : Type}

theorem newScope_valid (h : Heap Expr T Stmt) (parent global superGlobal : Ptr) :
    ScopeValid (NewScope h parent global superGlobal).1 (NewScope h parent global superGlobal).2 := by
  refine ⟨_, [], deref_alloc _ _, rfl, ?_⟩
  intro n g hg
  simp [Entries.lookup] at hg

theorem newScope_groupOf (h : Heap Expr T Stmt) (parent global superGlobal : Ptr) (k : String) :
    groupOf (NewScope h parent global superGlobal).1 (NewScope h parent global superGlobal).2 k
      = none := by
  have hd : deref (NewScope h parent global superGlobal).1.Scopes
      (NewScope h parent global superGlobal).2 = some _ := deref_alloc _ _
  simp only [groupOf, hd]
  rfl

theorem newScope_variables (h : Heap Expr T Stmt) (parent global superGlobal : Ptr) :
    (NewScope h parent global superGlobal).1.Variables = h.Variables := rfl

/-- Every submission of a sequence returns when the scope is usable and every submitted pointer
addresses a `Variable`; the scope stays usable and only `Type` fields change. -/
theorem submitAll_valid (Static : Expr → Option String)
    (EvaluatesTo : Variable Expr T → T) (Union : T → T → T) (Unknown : T)
    {h : Heap Expr T Stmt} {s : Ptr} (hvalid : ScopeValid h s) (vs : List Ptr)
    (hvs : ∀ v ∈ vs, (deref h.Variables v).isSome) :
    ∃ h1, submitAll Static EvaluatesTo Union Unknown h s vs = some h1 ∧
      ScopeValid h1 s ∧ SameNames h.Variables h1.Variables := by
  induction vs generalizing h with
  | nil => exact ⟨h, rfl, hvalid, SameNames.refl _⟩
  | cons v vs ih =>
    obtain ⟨x, hx⟩ := Option.isSome_iff_exists.mp (hvs v (List.mem_cons_self _ _))
    have hstep : ∃ h1, Scope.Variable Static EvaluatesTo Union Unknown h s v = some h1 ∧
        ScopeValid h1 s ∧ SameNames h.Variables h1.Variables := by
      cases hn : Static x.Name with
      | none =>
        obtain ⟨h1, hcall, hv1, hvars, -⟩ :=
          variable_dynamic_effect Static EvaluatesTo Union Unknown hvalid hx hn
        exact ⟨h1, hcall, hv1, by rw [hvars]; exact SameNames.refl _⟩
      | some n =>
        obtain ⟨h1, hcall, hv1, hsame, -⟩ :=
          variable_static_effect Static EvaluatesTo Union Unknown hvalid hx hn
        exact ⟨h1, hcall, hv1, hsame⟩
    obtain ⟨h1, hcall, hv1, hsame⟩ := hstep
    have hvs1 : ∀ w ∈ vs, (deref h1.Variables w).isSome := by
      intro w hw
      rw [hsame.isSome]
      exact hvs w (List.mem_cons_of_mem _ hw)
    obtain ⟨h2, hrun, hv2, hsame2⟩ := ih hv1 hvs1
    refine ⟨h2, ?_, hv2, hsame.trans hsame2⟩
    simp only [submitAll, hcall]
    exact hrun

/-- The join invariant is kept by one call: when every group's `Type` is the join of the
contributions of its references, it is so again after `Scope.Variable`. -/
theorem variable_keeps_join (Static : Expr → Option String)
    (EvaluatesTo : Variable Expr T → T) (Union : T → T → T) (Unknown : T)
    (hE : ∀ (x : Variable Expr T) (t : T), EvaluatesTo { x with Type_ := t } = EvaluatesTo x)
    {h h1 : Heap Expr T Stmt} {s v : Ptr} (hvalid : ScopeValid h s)
    (hJ : ∀ k g, groupOf h s k = some g →
      g.Type_ = (contributions EvaluatesTo h.Variables g.References).foldl Union Unknown)
    (hcall : Scope.Variable Static EvaluatesTo Union Unknown h s v = some h1) :
    ∀ k g, groupOf h1 s k = some g →
      g.Type_ = (contributions EvaluatesTo h1.Variables g.References).foldl Union Unknown := by
  cases hx : deref h.Variables v with
  | none => simp [Scope.Variable, hx] at hcall
  | some x =>
    cases hn : Static x.Name with
    | none =>
      obtain ⟨h2, hcall2, -, hvars, hgroups, -⟩ :=
        variable_dynamic_effect Static EvaluatesTo Union Unknown hvalid hx hn
      rw [hcall] at hcall2
      cases hcall2
      intro k g hk
      rw [hgroups] at hk
      rw [hvars]
      exact hJ k g hk
    | some n =>
      obtain ⟨h2, hcall2, -, hsame, hgroups, -⟩ :=
        variable_static_effect Static EvaluatesTo Union Unknown hvalid hx hn
      rw [hcall] at hcall2
      cases hcall2
      intro k g hk
      rw [hgroups] at hk
      rw [hsame.contributions hE]
      by_cases hkn : k = n
      · subst hkn
        simp only [if_true, Option.some.injEq] at hk
        subst hk
        simp only [contributions_append, contributions_singleton EvaluatesTo hx,
          List.foldl_append, List.foldl_cons, List.foldl_nil]
        cases hold : groupOf h s k with
        | none => simp [contributions]
        | some g0 =>
          simp only [Option.getD_some]
          rw [hJ k g0 hold]
      · simp only [hkn, if_false] at hk
        exact hJ k g hk

theorem submitAll_keeps_join (Static : Expr → Option String)
    (EvaluatesTo : Variable Expr T → T) (Union : T → T → T) (Unknown : T)
    (hE : ∀ (x : Variable Expr T) (t : T), EvaluatesTo { x with Type_ := t } = EvaluatesTo x)
    {h : Heap Expr T Stmt} {s : Ptr} (hvalid : ScopeValid h s)
    (hJ : ∀ k g, groupOf h s k = some g →
      g.Type_ = (contributions EvaluatesTo h.Variables g.References).foldl Union Unknown)
    (vs : List Ptr) (hvs : ∀ v ∈ vs, (deref h.Variables v).isSome) :
    ∃ h1, submitAll Static EvaluatesTo Union Unknown h s vs = some h1 ∧
      ScopeValid h1 s ∧ SameNames h.Variables h1.Variables ∧
      ∀ k g, groupOf h1 s k = some g →
        g.Type_ = (contributions EvaluatesTo h1.Variables g.References).foldl Union Unknown := by
  induction vs generalizing h with
  | nil => exact ⟨h, rfl, hvalid, SameNames.refl _, hJ⟩
  | cons v vs ih =>
    obtain ⟨h1, hcall, hv1, hsame⟩ := submitAll_valid Static EvaluatesTo Union Unknown hvalid [v]
      (fun w hw => hvs w (by simp only [List.mem_singleton] at hw; simp [hw]))
    cases hstep : Scope.Variable Static EvaluatesTo Union Unknown h s v with
    | none => simp [submitAll, hstep] at hcall
    | some h2 =>
      simp only [submitAll, hstep, Option.some.injEq] at hcall
      subst hcall
      have hJ2 := variable_keeps_join Static EvaluatesTo Union Unknown hE hvalid hJ hstep
      have hvs1 : ∀ w ∈ vs, (deref h2.Variables w).isSome := by
        intro w hw
        rw [hsame.isSome]
        exact hvs w (List.mem_cons_of_mem _ hw)
      obtain ⟨h3, hrun, hv3, hsame3, hJ3⟩ := ih hv1 hJ2 hvs1
      refine ⟨h3, ?_, hv3, hsame.trans hsame3, hJ3⟩
      simp only [submitAll, hstep]
      exact hrun

end Submissions

/-! ## Claims on `Scope.Variable` -/

section ScopeClaims

variable {Expr T Stmt : Type}

/-- C1, evaluated on its scenario: `x` contributing `Int` and then `x` contributing `String` are
submitted to a fresh scope, their own `Type` fields being `t0` and `t1` beforehand. The group of
`x` gets type `Int|String` and so does the first occurrence, but the occurrence submitted last
keeps the `Type` field `t1` it came with: the backpatch loop runs before the occurrence is
appended to the references. -/
theorem C1_latest_occurrence_not_backpatched (t0 t1 : Nat) :
    submitAll sampleStatic sampleEvaluatesTo sampleUnion sampleUnknown
        (NewScope (twoX t0 t1) none none none).1 (NewScope (twoX t0 t1) none none none).2
        [some 0, some 1]
      = some { emptyHeap with
          Variables := [⟨.ident "x" sampleInt, sampleUnion sampleInt sampleString⟩,
                        ⟨.ident "x" sampleString, t1⟩]
          Scopes := [{ Identifiers :=
                         some [("x", ⟨[some 0, some 1], sampleUnion sampleInt sampleString⟩)]
                       DynamicVariables := []
                       EnclosingScope := none
                       GlobalScope := none
                       SuperGlobalScope := none }] } := by
  simp [submitAll, Scope.Variable, NewScope, twoX, emptyHeap, alloc, deref, store, backpatch,
    sampleStatic, sampleEvaluatesTo, sampleUnion, sampleUnknown, sampleInt, sampleString,
    GoMap.get, GoMap.set, Entries.lookup, Entries.assign]

/-- C4: for every allocated scope and every `Variable` whose name has no static form,
`Scope.Variable` returns, leaves the `Identifiers` map of the scope as it was, leaves every
`Variable` (so every `Type` field) as it was, and makes `DynamicVariables` the previous list
with `v` appended at the end. -/
theorem C4_dynamic_submission_only_appends (Static : Expr → Option String)
    (EvaluatesTo : Variable Expr T → T) (Union : T → T → T) (Unknown : T)
    (h : Heap Expr T Stmt) (s v : Ptr) (sc : Scope T) (x : Variable Expr T)
    (hs : deref h.Scopes s = some sc) (hv : deref h.Variables v = some x)
    (hdyn : Static x.Name = none) :
    ∃ h1 sc1, Scope.Variable Static EvaluatesTo Union Unknown h s v = some h1 ∧
      deref h1.Scopes s = some sc1 ∧
      sc1.Identifiers = sc.Identifiers ∧
      sc1.DynamicVariables = sc.DynamicVariables ++ [v] ∧
      h1.Variables = h.Variables := by
  obtain ⟨a, rfl, ha, hcall⟩ := variable_dynamic_step Static EvaluatesTo Union Unknown hv hdyn hs
  exact ⟨_, _, hcall, deref_set_self ha _, rfl, rfl, rfl⟩

/-- C4 at its scenario: a dynamically named occurrence is submitted to a scope with no prior
entries; `Identifiers` stays empty and `DynamicVariables` is the one-element list of it. -/
theorem C4_dynamic_submission_only_appends_witness :
    ∃ h1 sc1, Scope.Variable sampleStatic sampleEvaluatesTo sampleUnion sampleUnknown
        (NewScope oneDynamic none none none).1 (NewScope oneDynamic none none none).2 (some 0)
        = some h1 ∧
      deref h1.Scopes (NewScope oneDynamic none none none).2 = some sc1 ∧
      sc1.Identifiers = some [] ∧
      sc1.DynamicVariables = [] ++ [some 0] ∧
      h1.Variables = oneDynamic.Variables :=
  C4_dynamic_submission_only_appends sampleStatic sampleEvaluatesTo sampleUnion sampleUnknown
    (NewScope oneDynamic none none none).1 (NewScope oneDynamic none none none).2 (some 0)
    ⟨some [], [], none, none, none⟩ ⟨.computed sampleInt, sampleUnknown⟩ rfl rfl rfl

end ScopeClaims

/-! ## Submissions under one static name -/

section SameName

variable {Expr T Stmt : Type}

theorem deref_of_nameOf {Static : Expr → Option String} {vars : List (Variable Expr T)}
    {v : Ptr} {n : String} (hn : nameOf Static vars v = some n) :
    ∃ x, deref vars v = some x ∧ Static x.Name = some n := by
  unfold PhpAst.nameOf at hn
  cases hx : deref vars v with
  | none => simp [hx] at hn
  | some x => exact ⟨x, rfl, by simpa [hx] using hn⟩

theorem nameOf_of_deref {Static : Expr → Option String} {vars : List (Variable Expr T)}
    {v : Ptr} {x : Variable Expr T} (hx : deref vars v = some x) :
    nameOf Static vars v = Static x.Name := by
  simp [nameOf, hx]

end SameName

/-! ## Order of submission and growth of the references -/

section OrderClaims

variable {Expr T Stmt : Type}

/-- C5: take a scope built by `NewScope` to which any sequence `pre` of occurrences has been
submitted, and an occurrence `v` with static name `n`. `Scope.Variable(v)` returns and the
references of group `n` are then the previous references of `n` (none when `n` had no group)
with `v` appended at the end. Nothing is de-duplicated: submitting the same `v` once more
returns as well and leaves `v` appended twice. -/
theorem C5_references_grow_by_append (Static : Expr → Option String)
    (EvaluatesTo : Variable Expr T → T) (Union : T → T → T) (Unknown : T)
    (h : Heap Expr T Stmt) (parent global superGlobal : Ptr) (pre : List Ptr) (v : Ptr)
    (n : String) (hpre : ∀ p ∈ pre, (deref h.Variables p).isSome)
    (hv : nameOf Static h.Variables v = some n) :
    ∃ h1 h2 h3,
      submitAll Static EvaluatesTo Union Unknown (NewScope h parent global superGlobal).1
        (NewScope h parent global superGlobal).2 pre = some h1 ∧
      Scope.Variable Static EvaluatesTo Union Unknown h1
        (NewScope h parent global superGlobal).2 v = some h2 ∧
      Scope.Variable Static EvaluatesTo Union Unknown h2
        (NewScope h parent global superGlobal).2 v = some h3 ∧
      (groupOf h2 (NewScope h parent global superGlobal).2 n).map (fun g => g.References)
        = some (((groupOf h1 (NewScope h parent global superGlobal).2 n).map
            (fun g => g.References)).getD [] ++ [v]) ∧
      (groupOf h3 (NewScope h parent global superGlobal).2 n).map (fun g => g.References)
        = some (((groupOf h1 (NewScope h parent global superGlobal).2 n).map
            (fun g => g.References)).getD [] ++ [v, v]) := by
  obtain ⟨h1, hrun, hvalid1, hsame1⟩ := submitAll_valid Static EvaluatesTo Union Unknown
    (newScope_valid h parent global superGlobal) pre hpre
  have hv1 : nameOf Static h1.Variables v = some n := by
    rw [hsame1.nameOf, newScope_variables]
    exact hv
  obtain ⟨x1, hx1, hn1⟩ := deref_of_nameOf hv1
  obtain ⟨h2, hcall2, hvalid2, hsame2, hgroups2, -⟩ :=
    variable_static_effect Static EvaluatesTo Union Unknown hvalid1 hx1 hn1
  have hv2 : nameOf Static h2.Variables v = some n := by
    rw [hsame2.nameOf]
    exact hv1
  obtain ⟨x2, hx2, hn2⟩ := deref_of_nameOf hv2
  obtain ⟨h3, hcall3, -, -, hgroups3, -⟩ :=
    variable_static_effect Static EvaluatesTo Union Unknown hvalid2 hx2 hn2
  refine ⟨h1, h2, h3, hrun, hcall2, hcall3, ?_, ?_⟩
  · rw [hgroups2 n]
    cases groupOf h1 (NewScope h parent global superGlobal).2 n <;> simp
  · rw [hgroups3 n, hgroups2 n]
    cases groupOf h1 (NewScope h parent global superGlobal).2 n <;> simp

/-- C5 at a fresh scope and the first occurrence of `x`: submitted twice, it is recorded twice. -/
theorem C5_references_grow_by_append_witness :
    ∃ h1 h2 h3,
      submitAll sampleStatic sampleEvaluatesTo sampleUnion sampleUnknown
        (NewScope (twoX sampleInt sampleString) none none none).1
        (NewScope (twoX sampleInt sampleString) none none none).2 [] = some h1 ∧
      Scope.Variable sampleStatic sampleEvaluatesTo sampleUnion sampleUnknown h1
        (NewScope (twoX sampleInt sampleString) none none none).2 (some 0) = some h2 ∧
      Scope.Variable sampleStatic sampleEvaluatesTo sampleUnion sampleUnknown h2
        (NewScope (twoX sampleInt sampleString) none none none).2 (some 0) = some h3 ∧
      (groupOf h2 (NewScope (twoX sampleInt sampleString) none none none).2 "x").map
          (fun g => g.References)
        = some (((groupOf h1 (NewScope (twoX sampleInt sampleString) none none none).2 "x").map
            (fun g => g.References)).getD [] ++ [some 0]) ∧
      (groupOf h3 (NewScope (twoX sampleInt sampleString) none none none).2 "x").map
          (fun g => g.References)
        = some (((groupOf h1 (NewScope (twoX sampleInt sampleString) none none none).2 "x").map
            (fun g => g.References)).getD [] ++ [some 0, some 0]) :=
  C5_references_grow_by_append sampleStatic sampleEvaluatesTo sampleUnion sampleUnknown
    (twoX sampleInt sampleString) none none none [] (some 0) "x" (by decide) (by decide)

end OrderClaims

/-! ## One call of `FileSet.Namespace` -/

section NamespaceStep

variable {Expr T Stmt : Type}

theorem namespace_present_step {h : Heap Expr T Stmt} {f : Ptr} {fs : FileSet}
    {m : Entries Ptr} {name : String} {p : Ptr}
    (hf : deref h.FileSets f = some fs) (hm : fs.Namespaces = some m)
    (hsome : m.lookup name = some p) : FileSet.Namespace h f name = some (h, p) := by
  simp [FileSet.Namespace, hf, hm, GoMap.get, GoMap.index, hsome]

theorem namespace_absent_step {h : Heap Expr T Stmt} {f : Ptr} {fs : FileSet}
    {m : Entries Ptr} {name : String}
    (hf : deref h.FileSets f = some fs) (hm : fs.Namespaces = some m)
    (hnone : m.lookup name = none) :
    ∃ a, f = some a ∧ a < h.FileSets.length ∧
      FileSet.Namespace h f name
        = some ({ h with
            Namespaces := h.Namespaces ++ [⟨name, some [], some [], some []⟩]
            FileSets := h.FileSets.set a
              { fs with Namespaces := some (m.assign name (some h.Namespaces.length)) } },
          some h.Namespaces.length) := by
  obtain ⟨a, rfl, ha, hst⟩ := store_of_deref hf
    ({ fs with Namespaces := some (m.assign name (some h.Namespaces.length)) } : FileSet)
  refine ⟨a, rfl, ha, ?_⟩
  simp only [FileSet.Namespace, hf, hm, GoMap.get, hnone, GoMap.set, NewNamespace, alloc,
    hst, GoMap.index, Entries.lookup_assign_self]

theorem deref_append_new {α : Type} (heap : List α) (x : α) :
    deref (heap ++ [x]) (some heap.length) = some x := by
  simp [deref]

theorem Entries.keys_assign_of_lookup_none {V : Type} (m : Entries V) {k : String} (v : V)
    (hnone : m.lookup k = none) : (m.assign k v).keys = m.keys ++ [k] := by
  rw [Entries.assign_of_lookup_none m v hnone]
  simp [Entries.keys]

theorem newFileSet_ptr (h : Heap Expr T Stmt) :
    (NewFileSet h).2 = some h.FileSets.length := rfl

theorem newFileSet_fileSets (h : Heap Expr T Stmt) :
    (NewFileSet h).1.FileSets
      = h.FileSets ++ [⟨some [], some [], some h.Namespaces.length, some h.Scopes.length⟩] := rfl

theorem newFileSet_namespaces (h : Heap Expr T Stmt) :
    (NewFileSet h).1.Namespaces = h.Namespaces ++ [⟨"/", some [], some [], some []⟩] := rfl

theorem newFileSet_ok (h : Heap Expr T Stmt) : FileSetOK (NewFileSet h).1 (NewFileSet h).2 := by
  have hd : deref (NewFileSet h).1.FileSets (NewFileSet h).2
      = some ⟨some [], some [], some h.Namespaces.length, some h.Scopes.length⟩ := by
    rw [newFileSet_ptr, newFileSet_fileSets]
    exact deref_append_new _ _
  refine ⟨_, [], h.Namespaces.length, hd, rfl, rfl, ?_, ?_, ?_, ?_⟩
  · rw [newFileSet_namespaces]
    exact deref_append_new _ _
  · simp [Entries.keys]
  · intro k p hk
    simp [Entries.lookup] at hk
  · intro k1 k2 p hk
    simp [Entries.lookup] at hk

/-- One lookup on a well-formed file set: the call returns, the file set stays well-formed, the
returned pointer is what the registry then holds under the name, earlier entries and all
namespace objects stay as they are, and the only key that can be new is the name. -/
theorem namespace_effect {h : Heap Expr T Stmt} {f : Ptr} (hok : FileSetOK h f)
    (name : String) :
    ∃ h1 p, FileSet.Namespace h f name = some (h1, p) ∧ FileSetOK h1 f ∧
      (registryOf h1 f).get name = some p ∧
      (∀ k q, (registryOf h f).get k = some q → (registryOf h1 f).get k = some q) ∧
      (∀ k, k ∈ (registryOf h1 f).keys ↔ k ∈ (registryOf h f).keys ∨ k = name) ∧
      ((registryOf h f).get name = none → p = some h.Namespaces.length) ∧
      (∀ q x, deref h.Namespaces q = some x → deref h1.Namespaces q = some x) ∧
      (deref h1.FileSets f).map (fun fs => fs.GlobalNamespace)
        = (deref h.FileSets f).map (fun fs => fs.GlobalNamespace) := by
  obtain ⟨fs, m, r, hf, hm, hroot, hrootObj, hnodup, hentries, hinj⟩ := hok
  have hreg : registryOf h f = some m := by simp [registryOf, hf, hm]
  cases hlk : m.lookup name with
  | some p =>
    refine ⟨h, p, namespace_present_step hf hm hlk,
      ⟨fs, m, r, hf, hm, hroot, hrootObj, hnodup, hentries, hinj⟩, ?_, fun _ _ hq => hq, ?_,
      ?_, fun _ _ hx => hx, rfl⟩
    · simp [hreg, GoMap.get, hlk]
    · intro k
      constructor
      · exact fun hk => Or.inl hk
      · rintro (hk | rfl)
        · exact hk
        · rw [hreg]
          have : ¬ m.lookup k = none := by simp [hlk]
          simpa [GoMap.keys, Entries.lookup_eq_none_iff] using this
    · intro hnone
      simp [hreg, GoMap.get, hlk] at hnone
  | none =>
    obtain ⟨a, rfl, ha, hcall⟩ := namespace_absent_step hf hm hlk
    have hrlt : r < h.Namespaces.length := deref_some_lt hrootObj
    have hreg1 : registryOf ({ h with
        Namespaces := h.Namespaces ++ [⟨name, some [], some [], some []⟩]
        FileSets := h.FileSets.set a
          { fs with Namespaces := some (m.assign name (some h.Namespaces.length)) } } :
          Heap Expr T Stmt) (some a)
        = some (m.assign name (some h.Namespaces.length)) := by
      simp [registryOf, deref_set, ha]
    refine ⟨_, _, hcall, ⟨_, _, r, deref_set_self ha _, rfl, hroot,
      deref_append_left hrootObj _, ?_, ?_, ?_⟩, ?_, ?_, ?_, fun _ => rfl,
      fun q x hx => deref_append_left hx _, ?_⟩
    · rw [Entries.keys_assign_of_lookup_none m _ hlk]
      refine List.Nodup.append hnodup (List.nodup_singleton _) ?_
      intro k hk1 hk2
      simp only [List.mem_singleton] at hk2
      subst hk2
      exact (Entries.lookup_eq_none_iff m k).mp hlk hk1
    · intro k p hk
      by_cases hkn : k = name
      · subst hkn
        rw [Entries.lookup_assign_self] at hk
        cases hk
        exact ⟨_, _, rfl, hrlt, deref_append_new _ _, rfl⟩
      · rw [Entries.lookup_assign_ne _ _ hkn] at hk
        obtain ⟨b, ns, hp, hrb, hd, hname⟩ := hentries k p hk
        exact ⟨b, ns, hp, hrb, deref_append_left hd _, hname⟩
    · intro k1 k2 p hk1 hk2
      by_cases h1n : k1 = name
      · by_cases h2n : k2 = name
        · rw [h1n, h2n]
        · exfalso
          subst h1n
          rw [Entries.lookup_assign_self] at hk1
          rw [Entries.lookup_assign_ne _ _ h2n] at hk2
          obtain ⟨b, ns, hp, -, hd, -⟩ := hentries k2 p hk2
          cases hk1
          cases hp
          exact absurd (deref_some_lt hd) (lt_irrefl _)
      · by_cases h2n : k2 = name
        · exfalso
          subst h2n
          rw [Entries.lookup_assign_self] at hk2
          rw [Entries.lookup_assign_ne _ _ h1n] at hk1
          obtain ⟨b, ns, hp, -, hd, -⟩ := hentries k1 p hk1
          cases hk2
          cases hp
          exact absurd (deref_some_lt hd) (lt_irrefl _)
        · rw [Entries.lookup_assign_ne _ _ h1n] at hk1
          rw [Entries.lookup_assign_ne _ _ h2n] at hk2
          exact hinj k1 k2 p hk1 hk2
    · rw [hreg1]
      simp [GoMap.get, Entries.lookup_assign_self]
    · intro k q hq
      rw [hreg] at hq
      rw [hreg1]
      simp only [GoMap.get] at hq ⊢
      have hkn : k ≠ name := by
        rintro rfl
        rw [hlk] at hq
        cases hq
      rw [Entries.lookup_assign_ne _ _ hkn]
      exact hq
    · intro k
      rw [hreg, hreg1]
      simp [GoMap.keys, Entries.keys_assign_of_lookup_none m _ hlk]
    · simp [deref_set, ha, hf]

end NamespaceStep

/-! ## Sequences of lookups -/

section Lookups

variable {Expr T Stmt : Type}

theorem fileSetOK_entry {h : Heap Expr T Stmt} {f : Ptr} (hok : FileSetOK h f) {k : String}
    {p : Ptr} (hk : (registryOf h f).get k = some p) :
    ∃ a ns r, p = some a ∧ deref h.Namespaces p = some ns ∧ ns.Name = k ∧
      (deref h.FileSets f).map (fun fs => fs.GlobalNamespace) = some (some r) ∧ r < a ∧
      deref h.Namespaces (some r) = some ⟨"/", some [], some [], some []⟩ := by
  obtain ⟨fs, m, r, hf, hm, hroot, hrootObj, -, hentries, -⟩ := hok
  have hlk : m.lookup k = some p := by simpa [registryOf, hf, hm, GoMap.get] using hk
  obtain ⟨a, ns, hp, hra, hd, hname⟩ := hentries k p hlk
  exact ⟨a, ns, r, hp, hd, hname, by simp [hf, hroot], hra, hrootObj⟩

theorem fileSetOK_inj {h : Heap Expr T Stmt} {f : Ptr} (hok : FileSetOK h f) {k1 k2 : String}
    {p : Ptr} (hk1 : (registryOf h f).get k1 = some p) (hk2 : (registryOf h f).get k2 = some p) :
    k1 = k2 := by
  obtain ⟨fs, m, r, hf, hm, -, -, -, -, hinj⟩ := hok
  have h1 : m.lookup k1 = some p := by simpa [registryOf, hf, hm, GoMap.get] using hk1
  have h2 : m.lookup k2 = some p := by simpa [registryOf, hf, hm, GoMap.get] using hk2
  exact hinj k1 k2 p h1 h2

theorem fileSetOK_nodup {h : Heap Expr T Stmt} {f : Ptr} (hok : FileSetOK h f) :
    (registryOf h f).keys.Nodup := by
  obtain ⟨fs, m, r, hf, hm, -, -, hnodup, -, -⟩ := hok
  simpa [registryOf, hf, hm, GoMap.keys] using hnodup

theorem newFileSet_registry (h : Heap Expr T Stmt) :
    registryOf (NewFileSet h).1 (NewFileSet h).2 = some [] := by
  have hd : deref (NewFileSet h).1.FileSets (NewFileSet h).2
      = some ⟨some [], some [], some h.Namespaces.length, some h.Scopes.length⟩ := by
    rw [newFileSet_ptr, newFileSet_fileSets]
    exact deref_append_new _ _
  simp [registryOf, hd]

/-- Every lookup of a sequence returns on a well-formed file set; the file set stays
well-formed, entries and namespace objects are never replaced, and the keys afterwards are the
earlier keys together with the names looked up. -/
theorem lookupAll_effect {h : Heap Expr T Stmt} {f : Ptr} (hok : FileSetOK h f)
    (names : List String) :
    ∃ h1, lookupAll h f names = some h1 ∧ FileSetOK h1 f ∧
      (∀ k q, (registryOf h f).get k = some q → (registryOf h1 f).get k = some q) ∧
      (∀ k, k ∈ (registryOf h1 f).keys ↔ k ∈ (registryOf h f).keys ∨ k ∈ names) ∧
      (∀ q x, deref h.Namespaces q = some x → deref h1.Namespaces q = some x) ∧
      (deref h1.FileSets f).map (fun fs => fs.GlobalNamespace)
        = (deref h.FileSets f).map (fun fs => fs.GlobalNamespace) := by
  induction names generalizing h with
  | nil => exact ⟨h, rfl, hok, fun _ _ hq => hq, fun k => by simp, fun _ _ hx => hx, rfl⟩
  | cons name names ih =>
    obtain ⟨h1, p, hcall, hok1, -, hkeep, hkeys, -, hobjs, hroot⟩ := namespace_effect hok name
    obtain ⟨h2, hrun, hok2, hkeep2, hkeys2, hobjs2, hroot2⟩ := ih hok1
    refine ⟨h2, ?_, hok2, fun k q hq => hkeep2 k q (hkeep k q hq), ?_,
      fun q x hx => hobjs2 q x (hobjs q x hx), hroot2.trans hroot⟩
    · simp only [lookupAll, hcall]
      exact hrun
    · intro k
      rw [hkeys2 k, hkeys k, List.mem_cons]
      tauto

end Lookups

/-! ## Claims on `FileSet.Namespace` -/

section NamespaceClaims

variable {Expr T Stmt : Type}

/-- C6: on a file set from `NewFileSet`, after any lookups `names1`, a lookup of `a`, any
further lookups `names2` and a lookup of `b` all return, the instances returned for `a` and for
`b` are non-nil, and they are the same instance exactly when `a = b`. -/
theorem C6_namespace_identity_by_name (h : Heap Expr T Stmt) (names1 names2 : List String)
    (a b : String) :
    ∃ h1 h2 h3 h4 pa pb,
      lookupAll (NewFileSet h).1 (NewFileSet h).2 names1 = some h1 ∧
      FileSet.Namespace h1 (NewFileSet h).2 a = some (h2, pa) ∧
      lookupAll h2 (NewFileSet h).2 names2 = some h3 ∧
      FileSet.Namespace h3 (NewFileSet h).2 b = some (h4, pb) ∧
      pa ≠ none ∧ pb ≠ none ∧ (pa = pb ↔ a = b) := by
  obtain ⟨h1, hrun1, hok1, -⟩ := lookupAll_effect (newFileSet_ok h) names1
  obtain ⟨h2, pa, hcall2, hok2, hget2, -⟩ := namespace_effect hok1 a
  obtain ⟨h3, hrun3, hok3, hkeep3, -⟩ := lookupAll_effect hok2 names2
  obtain ⟨h4, pb, hcall4, hok4, hget4, hkeep4, -, hfresh4, -⟩ := namespace_effect hok3 b
  have hga : (registryOf h4 (NewFileSet h).2).get a = some pa :=
    hkeep4 a pa (hkeep3 a pa hget2)
  obtain ⟨xa, -, -, hpa, -⟩ := fileSetOK_entry hok4 hga
  obtain ⟨xb, -, -, hpb, -⟩ := fileSetOK_entry hok4 hget4
  refine ⟨h1, h2, h3, h4, pa, pb, hrun1, hcall2, hrun3, hcall4, by simp [hpa], by simp [hpb], ?_⟩
  constructor
  · intro hab
    subst hab
    exact fileSetOK_inj hok4 hga hget4
  · intro hab
    subst hab
    rw [hga] at hget4
    exact Option.some.inj hget4


/-- C7: on a file set whose registry is initialised, `FileSet.Namespace(name)` returns; the
fields `Files`, `GlobalNamespace`, `Scope` and every registry entry under another key are as
before; when `name` was not a key the registry has one entry more and its keys are the earlier
keys and `name`; when `name` was a key the registry is unchanged. -/
theorem C7_lookup_changes_only_its_key (h : Heap Expr T Stmt) (f : Ptr) (fs : FileSet)
    (m : Entries Ptr) (name : String)
    (hf : deref h.FileSets f = some fs) (hm : fs.Namespaces = some m) :
    ∃ h1 p fs1, FileSet.Namespace h f name = some (h1, p) ∧
      deref h1.FileSets f = some fs1 ∧
      fs1.Files = fs.Files ∧ fs1.GlobalNamespace = fs.GlobalNamespace ∧ fs1.Scope = fs.Scope ∧
      (∀ k, k ≠ name → fs1.Namespaces.get k = fs.Namespaces.get k) ∧
      (fs.Namespaces.get name = none →
        fs1.Namespaces.size = fs.Namespaces.size + 1 ∧
        ∀ k, k ∈ fs1.Namespaces.keys ↔ k ∈ fs.Namespaces.keys ∨ k = name) ∧
      (fs.Namespaces.get name ≠ none → fs1.Namespaces = fs.Namespaces) := by
  cases hlk : m.lookup name with
  | some p =>
    refine ⟨h, p, fs, namespace_present_step hf hm hlk, hf, rfl, rfl, rfl, fun _ _ => rfl,
      ?_, fun _ => rfl⟩
    intro hnone
    simp [hm, GoMap.get, hlk] at hnone
  | none =>
    obtain ⟨a, rfl, ha, hcall⟩ := namespace_absent_step hf hm hlk
    refine ⟨_, _, _, hcall, deref_set_self ha _, rfl, rfl, rfl, ?_, ?_, ?_⟩
    · intro k hk
      simp [hm, GoMap.get, Entries.lookup_assign_ne _ _ hk]
    · intro _
      constructor
      · simp [hm, GoMap.size, Entries.assign_of_lookup_none m _ hlk]
      · intro k
        simp [hm, GoMap.keys, Entries.keys_assign_of_lookup_none m _ hlk]
    · intro hsome
      simp [hm, GoMap.get, hlk] at hsome

/-- C7 at a fresh file set and the name `App`. -/
theorem C7_lookup_changes_only_its_key_witness :
    ∃ h1 p fs1, FileSet.Namespace (NewFileSet emptyHeap).1 (some 0) "App" = some (h1, p) ∧
      deref h1.FileSets (some 0) = some fs1 ∧
      fs1.Files = freshFileSet.Files ∧ fs1.GlobalNamespace = freshFileSet.GlobalNamespace ∧
      fs1.Scope = freshFileSet.Scope ∧
      (∀ k, k ≠ "App" → fs1.Namespaces.get k = freshFileSet.Namespaces.get k) ∧
      (freshFileSet.Namespaces.get "App" = none →
        fs1.Namespaces.size = freshFileSet.Namespaces.size + 1 ∧
        ∀ k, k ∈ fs1.Namespaces.keys ↔ k ∈ freshFileSet.Namespaces.keys ∨ k = "App") ∧
      (freshFileSet.Namespaces.get "App" ≠ none → fs1.Namespaces = freshFileSet.Namespaces) :=
  C7_lookup_changes_only_its_key (NewFileSet emptyHeap).1 (some 0) freshFileSet [] "App"
    rfl rfl

/-- C8: on a file set whose registry is initialised, a lookup of a name that is not yet a key
returns a newly allocated namespace whose `Name` is the name and whose three maps are
initialised and empty, and stores that same instance under the name; a lookup of a name that is
a key returns the stored instance and changes nothing at all. -/
theorem C8_lookup_gets_or_creates (h : Heap Expr T Stmt) (f : Ptr) (fs : FileSet)
    (m : Entries Ptr) (name : String)
    (hf : deref h.FileSets f = some fs) (hm : fs.Namespaces = some m) :
    (fs.Namespaces.get name = none →
      ∃ h1 a fs1, FileSet.Namespace h f name = some (h1, some a) ∧
        deref h.Namespaces (some a) = none ∧
        deref h1.Namespaces (some a) = some ⟨name, some [], some [], some []⟩ ∧
        deref h1.FileSets f = some fs1 ∧ fs1.Namespaces.get name = some (some a)) ∧
    (∀ p, fs.Namespaces.get name = some p → FileSet.Namespace h f name = some (h, p)) := by
  constructor
  · intro hnone
    have hlk : m.lookup name = none := by simpa [hm, GoMap.get] using hnone
    obtain ⟨a, rfl, ha, hcall⟩ := namespace_absent_step hf hm hlk
    refine ⟨_, _, _, hcall, ?_, deref_append_new _ _, deref_set_self ha _, ?_⟩
    · simp [deref]
    · simp [GoMap.get, Entries.lookup_assign_self]
  · intro p hp
    have hlk : m.lookup name = some p := by simpa [hm, GoMap.get] using hp
    exact namespace_present_step hf hm hlk

/-- C8 at a fresh file set and the empty name. -/
theorem C8_lookup_gets_or_creates_witness :
    (freshFileSet.Namespaces.get "" = none →
      ∃ h1 a fs1, FileSet.Namespace (NewFileSet emptyHeap).1 (some 0) "" = some (h1, some a) ∧
        deref (NewFileSet emptyHeap).1.Namespaces (some a) = none ∧
        deref h1.Namespaces (some a) = some ⟨"", some [], some [], some []⟩ ∧
        deref h1.FileSets (some 0) = some fs1 ∧ fs1.Namespaces.get "" = some (some a)) ∧
    (∀ p, freshFileSet.Namespaces.get "" = some p →
      FileSet.Namespace (NewFileSet emptyHeap).1 (some 0) "" = some ((NewFileSet emptyHeap).1, p)) :=
  C8_lookup_gets_or_creates (NewFileSet emptyHeap).1 (some 0) freshFileSet [] "" rfl rfl

/-- C9 fails as stated: on the file set that `NewFileSet` builds on the empty heap, the root
namespace `GlobalNamespace` is the object at address 0, while looking up `"/"` allocates and
returns a second namespace, at address 1, also named `"/"`. -/
theorem C9_root_lookup_builds_second_namespace :
    (FileSet.Namespace (NewFileSet emptyHeap).1 (NewFileSet emptyHeap).2 "/").map
        (fun r => (r.2, (deref r.1.FileSets (NewFileSet emptyHeap).2).map
          (fun fs => fs.GlobalNamespace), r.1.Namespaces.map (fun ns => ns.Name)))
      = some (some 1, some (some 0), ["/", "/"]) := by
  decide

/-- C9 as amended: a file set from `NewFileSet` has `GlobalNamespace` set to a namespace named
`"/"` with empty declaration maps, and its registry `Namespaces` starts empty, so the root is
not an entry of it. After any lookups `GlobalNamespace` still addresses that unchanged object,
and looking up `"/"` returns a registry instance named `"/"` that is not the `GlobalNamespace`
instance. -/
theorem C9_root_namespace_outside_registry (h : Heap Expr T Stmt) (names : List String) :
    ∃ fs0 r, deref (NewFileSet h).1.FileSets (NewFileSet h).2 = some fs0 ∧
      fs0.GlobalNamespace = some r ∧ fs0.Namespaces = some [] ∧
      deref (NewFileSet h).1.Namespaces (some r) = some ⟨"/", some [], some [], some []⟩ ∧
      ∃ h1 h2 p fs2, lookupAll (NewFileSet h).1 (NewFileSet h).2 names = some h1 ∧
        FileSet.Namespace h1 (NewFileSet h).2 "/" = some (h2, p) ∧
        deref h2.FileSets (NewFileSet h).2 = some fs2 ∧ fs2.GlobalNamespace = some r ∧
        deref h2.Namespaces (some r) = some ⟨"/", some [], some [], some []⟩ ∧
        p ≠ some r ∧ (deref h2.Namespaces p).map (fun ns => ns.Name) = some "/" := by
  have hd : deref (NewFileSet h).1.FileSets (NewFileSet h).2
      = some ⟨some [], some [], some h.Namespaces.length, some h.Scopes.length⟩ := by
    rw [newFileSet_ptr, newFileSet_fileSets]
    exact deref_append_new _ _
  have hrootObj : deref (NewFileSet h).1.Namespaces (some h.Namespaces.length)
      = some ⟨"/", some [], some [], some []⟩ := by
    rw [newFileSet_namespaces]
    exact deref_append_new _ _
  refine ⟨_, h.Namespaces.length, hd, rfl, rfl, hrootObj, ?_⟩
  obtain ⟨h1, hrun, hok1, -, -, hobjs1, hroot1⟩ := lookupAll_effect (newFileSet_ok h) names
  obtain ⟨h2, p, hcall, hok2, hget, -, -, -, hobjs2, hroot2⟩ := namespace_effect hok1 "/"
  obtain ⟨a, ns, r, hp, hdp, hname, hglobal, hra, -⟩ := fileSetOK_entry hok2 hget
  have hg : (deref h2.FileSets (NewFileSet h).2).map (fun fs => fs.GlobalNamespace)
      = some (some h.Namespaces.length) := by
    rw [hroot2, hroot1, hd]
    rfl
  cases hfs2 : deref h2.FileSets (NewFileSet h).2 with
  | none => simp [hfs2] at hg
  | some fs2 =>
    rw [hfs2] at hg hglobal
    simp only [Option.map_some', Option.some.injEq] at hg hglobal
    refine ⟨h1, h2, p, fs2, hrun, hcall, hfs2, hg, hobjs2 _ _ (hobjs1 _ _ hrootObj), ?_, ?_⟩
    · rw [hp]
      rw [hg] at hglobal
      simp only [Option.some.injEq] at hglobal
      intro e
      simp only [Option.some.injEq] at e
      omega
    · simp [hdp, hname]

/-- C10: on a file set from `NewFileSet`, any sequence of lookups returns, and afterwards the
registry holds each key once and its keys are exactly the names that were looked up. -/
theorem C10_registry_keys_are_looked_up_names (h : Heap Expr T Stmt) (names : List String) :
    ∃ h1, lookupAll (NewFileSet h).1 (NewFileSet h).2 names = some h1 ∧
      (registryOf h1 (NewFileSet h).2).keys.Nodup ∧
      (registryOf h1 (NewFileSet h).2).size = (registryOf h1 (NewFileSet h).2).keys.length ∧
      ∀ k, k ∈ (registryOf h1 (NewFileSet h).2).keys ↔ k ∈ names := by
  obtain ⟨h1, hrun, hok1, -, hkeys, -⟩ := lookupAll_effect (newFileSet_ok h) names
  refine ⟨h1, hrun, fileSetOK_nodup hok1, ?_, ?_⟩
  · cases registryOf h1 (NewFileSet h).2 with
    | none => rfl
    | some es => simp [GoMap.size, GoMap.keys, Entries.keys]
  · intro k
    rw [hkeys k, newFileSet_registry]
    simp [GoMap.keys, Entries.keys]

/-- C10 at its scenario: after `Namespace("App")` twice on a fresh file set the registry has
exactly the one entry `App`. -/
theorem C10_registry_keys_after_app_twice :
    (lookupAll (NewFileSet emptyHeap).1 (NewFileSet emptyHeap).2 ["App", "App"]).map
        (fun h1 => (registryOf h1 (NewFileSet emptyHeap).2).keys)
      = some ["App"] := by
  decide

end NamespaceClaims

/-! ## The file set built by `NewFileSet` -/

section NewFileSetFacts

variable {Expr T Stmt : Type}

theorem newFileSet_scopes (h : Heap Expr T Stmt) :
    (NewFileSet h).1.Scopes
      = h.Scopes ++ [⟨some [], [], none, some h.GlobalScopes.length,
          some h.SuperGlobalScopes.length⟩] := rfl

theorem newFileSet_variables (h : Heap Expr T Stmt) :
    (NewFileSet h).1.Variables = h.Variables := rfl

theorem newFileSet_superGlobalScopes (h : Heap Expr T Stmt) :
    (NewFileSet h).1.SuperGlobalScopes = h.SuperGlobalScopes ++ [⟨none⟩] := rfl

theorem newFileSet_globalScopes (h : Heap Expr T Stmt) :
    (NewFileSet h).1.GlobalScopes
      = h.GlobalScopes ++ [⟨some h.Namespaces.length, some h.Scopes.length⟩] := by
  simp [NewFileSet, NewScope, NewGlobalScope, NewNamespace, alloc, setGlobalScopeScope, deref,
    store]

theorem newFileSet_deref (h : Heap Expr T Stmt) :
    deref (NewFileSet h).1.FileSets (NewFileSet h).2
      = some ⟨some [], some [], some h.Namespaces.length, some h.Scopes.length⟩ := by
  rw [newFileSet_ptr, newFileSet_fileSets]
  exact deref_append_new _ _

theorem newFileSet_scope_valid (h : Heap Expr T Stmt) :
    ScopeValid (NewFileSet h).1 (some h.Scopes.length) := by
  have hd : deref (NewFileSet h).1.Scopes (some h.Scopes.length)
      = some ⟨some [], [], none, some h.GlobalScopes.length,
          some h.SuperGlobalScopes.length⟩ := by
    rw [newFileSet_scopes]
    exact deref_append_new _ _
  refine ⟨_, [], hd, rfl, ?_⟩
  · intro n g hg
    simp [Entries.lookup] at hg

end NewFileSetFacts

/-! ## Totality, composition and frame claims -/

section LaterClaims

variable {Expr T Stmt : Type}

theorem Entries.mem_keys_assign {V : Type} (m : Entries V) (n k : String) (v : V) :
    k ∈ (m.assign n v).keys ↔ k ∈ m.keys ∨ k = n := by
  cases hlk : m.lookup n with
  | none =>
    rw [Entries.keys_assign_of_lookup_none m v hlk]
    simp
  | some w =>
    rw [Entries.keys_assign_of_lookup_some m v w hlk]
    constructor
    · exact fun hk => Or.inl hk
    · rintro (hk | rfl)
      · exact hk
      · have : ¬ m.lookup k = none := by simp [hlk]
        simpa [Entries.lookup_eq_none_iff] using this

theorem submitAll_one (Static : Expr → Option String)
    (EvaluatesTo : Variable Expr T → T) (Union : T → T → T) (Unknown : T)
    (h : Heap Expr T Stmt) (s v : Ptr) :
    submitAll Static EvaluatesTo Union Unknown h s [v]
      = Scope.Variable Static EvaluatesTo Union Unknown h s v := by
  simp only [submitAll]
  cases Scope.Variable Static EvaluatesTo Union Unknown h s v <;> rfl

/-- On a usable scope, a sequence of submissions followed by one more submission returns, and
the scope is usable afterwards. -/
theorem submitAll_then_one (Static : Expr → Option String)
    (EvaluatesTo : Variable Expr T → T) (Union : T → T → T) (Unknown : T)
    {h : Heap Expr T Stmt} {s : Ptr} (hvalid : ScopeValid h s) (pre : List Ptr) (v : Ptr)
    (hpre : ∀ p ∈ pre, (deref h.Variables p).isSome) (hv : (deref h.Variables v).isSome) :
    ∃ h1 h2, submitAll Static EvaluatesTo Union Unknown h s pre = some h1 ∧
      Scope.Variable Static EvaluatesTo Union Unknown h1 s v = some h2 ∧
      ScopeValid h1 s ∧ ScopeValid h2 s ∧ SameNames h.Variables h1.Variables ∧
      SameNames h1.Variables h2.Variables := by
  obtain ⟨h1, hrun1, hvalid1, hsame1⟩ :=
    submitAll_valid Static EvaluatesTo Union Unknown hvalid pre hpre
  obtain ⟨h2, hrun2, hvalid2, hsame2⟩ :=
    submitAll_valid Static EvaluatesTo Union Unknown hvalid1 [v] (by
      intro p hp
      simp only [List.mem_singleton] at hp
      subst hp
      rw [hsame1.isSome]
      exact hv)
  rw [submitAll_one] at hrun2
  exact ⟨h1, h2, hrun1, hrun2, hvalid1, hvalid2, hsame1, hsame2⟩

/-- C11: `Scope.Variable` returns on constructed scopes. On a scope from `NewScope`, and on the
program scope of a file set from `NewFileSet`, after any sequence `pre` of submissions of
non-nil `Variable` pointers (each of which returns), the submission of any non-nil `Variable`
pointer `v` returns as well, and the `Identifiers` map of the scope is still initialised. -/
theorem C11_variable_total_on_constructed_scopes (Static : Expr → Option String)
    (EvaluatesTo : Variable Expr T → T) (Union : T → T → T) (Unknown : T)
    (h : Heap Expr T Stmt) (parent global superGlobal : Ptr) (pre : List Ptr) (v : Ptr)
    (hpre : ∀ p ∈ pre, (deref h.Variables p).isSome) (hv : (deref h.Variables v).isSome) :
    (∃ h1 h2 sc m,
      submitAll Static EvaluatesTo Union Unknown (NewScope h parent global superGlobal).1
        (NewScope h parent global superGlobal).2 pre = some h1 ∧
      Scope.Variable Static EvaluatesTo Union Unknown h1
        (NewScope h parent global superGlobal).2 v = some h2 ∧
      deref h2.Scopes (NewScope h parent global superGlobal).2 = some sc ∧
      sc.Identifiers = some m) ∧
    (∃ fs h1 h2 sc m,
      deref (NewFileSet h).1.FileSets (NewFileSet h).2 = some fs ∧
      submitAll Static EvaluatesTo Union Unknown (NewFileSet h).1 fs.Scope pre = some h1 ∧
      Scope.Variable Static EvaluatesTo Union Unknown h1 fs.Scope v = some h2 ∧
      deref h2.Scopes fs.Scope = some sc ∧ sc.Identifiers = some m) := by
  constructor
  · obtain ⟨h1, h2, hrun1, hcall, -, hvalid2, -, -⟩ :=
      submitAll_then_one Static EvaluatesTo Union Unknown
        (newScope_valid h parent global superGlobal) pre v hpre hv
    obtain ⟨sc, m, hs, hm, -⟩ := hvalid2
    exact ⟨h1, h2, sc, m, hrun1, hcall, hs, hm⟩
  · obtain ⟨h1, h2, hrun1, hcall, -, hvalid2, -, -⟩ :=
      submitAll_then_one Static EvaluatesTo Union Unknown
        (newFileSet_scope_valid h) pre v hpre hv
    obtain ⟨sc, m, hs, hm, -⟩ := hvalid2
    exact ⟨_, h1, h2, sc, m, newFileSet_deref h, hrun1, hcall, hs, hm⟩

/-- C11 at the two occurrences of `x`: after the first, the second is submitted. -/
theorem C11_variable_total_on_constructed_scopes_witness :
    (∃ h1 h2 sc m,
      submitAll sampleStatic sampleEvaluatesTo sampleUnion sampleUnknown
        (NewScope (twoX sampleInt sampleString) none none none).1
        (NewScope (twoX sampleInt sampleString) none none none).2 [some 0] = some h1 ∧
      Scope.Variable sampleStatic sampleEvaluatesTo sampleUnion sampleUnknown h1
        (NewScope (twoX sampleInt sampleString) none none none).2 (some 1) = some h2 ∧
      deref h2.Scopes (NewScope (twoX sampleInt sampleString) none none none).2 = some sc ∧
      sc.Identifiers = some m) ∧
    (∃ fs h1 h2 sc m,
      deref (NewFileSet (twoX sampleInt sampleString)).1.FileSets
        (NewFileSet (twoX sampleInt sampleString)).2 = some fs ∧
      submitAll sampleStatic sampleEvaluatesTo sampleUnion sampleUnknown
        (NewFileSet (twoX sampleInt sampleString)).1 fs.Scope [some 0] = some h1 ∧
      Scope.Variable sampleStatic sampleEvaluatesTo sampleUnion sampleUnknown h1 fs.Scope
        (some 1) = some h2 ∧
      deref h2.Scopes fs.Scope = some sc ∧ sc.Identifiers = some m) :=
  C11_variable_total_on_constructed_scopes sampleStatic sampleEvaluatesTo sampleUnion
    sampleUnknown (twoX sampleInt sampleString) none none none [some 0] (some 1)
    (by decide) (by decide)

/-- C12: in the file set `fs` that `NewFileSet` returns, the program scope `fs.Scope` exists,
has no enclosing scope, an initialised empty `Identifiers` map and no dynamic variables; its
`GlobalScope` link addresses a `GlobalScope` object whose `Scope` is `fs.Scope` again and whose
`Namespace` is `fs.GlobalNamespace`; and `Files` and `Namespaces` are initialised and empty. -/
theorem C12_new_file_set_composition (h : Heap Expr T Stmt) :
    ∃ fs sc gs, deref (NewFileSet h).1.FileSets (NewFileSet h).2 = some fs ∧
      deref (NewFileSet h).1.Scopes fs.Scope = some sc ∧
      sc.EnclosingScope = none ∧ sc.Identifiers = some [] ∧ sc.DynamicVariables = [] ∧
      deref (NewFileSet h).1.GlobalScopes sc.GlobalScope = some gs ∧
      gs.Scope = fs.Scope ∧ gs.Namespace = fs.GlobalNamespace ∧
      fs.Files = some [] ∧ fs.Namespaces = some [] := by
  have hsc : deref (NewFileSet h).1.Scopes (some h.Scopes.length)
      = some ⟨some [], [], none, some h.GlobalScopes.length,
          some h.SuperGlobalScopes.length⟩ := by
    rw [newFileSet_scopes]
    exact deref_append_new _ _
  have hgs : deref (NewFileSet h).1.GlobalScopes (some h.GlobalScopes.length)
      = some ⟨some h.Namespaces.length, some h.Scopes.length⟩ := by
    rw [newFileSet_globalScopes]
    exact deref_append_new _ _
  exact ⟨_, _, _, newFileSet_deref h, hsc, rfl, rfl, rfl, hgs, rfl, rfl, rfl, rfl⟩

end LaterClaims

/-! ## Backpatch, superglobals, frame and registry names -/

section EffectClaims

variable {Expr T Stmt : Type}

/-- C16: let the scope `s` be allocated with an initialised `Identifiers` map, let `v` have the
static name `n`, and let the references already recorded for `n` be non-nil. Then
`Scope.Variable(v)` returns, the group of `n` has the type
`newType = oldGroupType.Union(v.EvaluatesTo())` (with `Unknown` for `oldGroupType` when `n` had
no group), and every occurrence recorded for `n` before the call has `Type` equal to
`newType`. -/
theorem C16_backpatch_of_earlier_occurrences (Static : Expr → Option String)
    (EvaluatesTo : Variable Expr T → T) (Union : T → T → T) (Unknown : T)
    (h : Heap Expr T Stmt) (s v : Ptr) (sc : Scope T) (m : Entries (VariableGroup T))
    (x : Variable Expr T) (n : String)
    (hs : deref h.Scopes s = some sc) (hm : sc.Identifiers = some m)
    (hv : deref h.Variables v = some x) (hn : Static x.Name = some n)
    (hrefs : ∀ p ∈ ((groupOf h s n).getD ⟨[], Unknown⟩).References,
      (deref h.Variables p).isSome) :
    ∃ h1 g1, Scope.Variable Static EvaluatesTo Union Unknown h s v = some h1 ∧
      groupOf h1 s n = some g1 ∧
      g1.Type_ = Union ((groupOf h s n).getD ⟨[], Unknown⟩).Type_ (EvaluatesTo x) ∧
      ∀ p ∈ ((groupOf h s n).getD ⟨[], Unknown⟩).References,
        typeOf h1.Variables p = some g1.Type_ := by
  have hg : groupOf h s n = m.lookup n := by simp [groupOf, hs, hm, GoMap.get]
  rw [hg] at hrefs ⊢
  obtain ⟨a, vars1, rfl, ha, -, hderef, hcall⟩ :=
    variable_static_step Static EvaluatesTo Union Unknown hv hn hs hm hrefs
  refine ⟨_, ⟨((m.lookup n).getD ⟨[], Unknown⟩).References ++ [v],
    Union ((m.lookup n).getD ⟨[], Unknown⟩).Type_ (EvaluatesTo x)⟩, hcall, ?_, rfl, ?_⟩
  · rw [groupOf_set_self ha]
    simp [GoMap.get, Entries.lookup_assign_self]
  · intro p hp
    obtain ⟨y, hy⟩ := Option.isSome_iff_exists.mp (hrefs p hp)
    simp [typeOf, hderef p, hy, hp]

/-- C16 at the second occurrence of `x`, submitted after the first. -/
theorem C16_backpatch_of_earlier_occurrences_witness :
    ∃ h1 g1, Scope.Variable sampleStatic sampleEvaluatesTo sampleUnion sampleUnknown
        oneXSubmitted (some 0) (some 1) = some h1 ∧
      groupOf h1 (some 0) "x" = some g1 ∧
      g1.Type_ = sampleUnion
        ((groupOf oneXSubmitted (some 0) "x").getD ⟨[], sampleUnknown⟩).Type_
        (sampleEvaluatesTo ⟨.ident "x" sampleString, sampleString⟩) ∧
      ∀ p ∈ ((groupOf oneXSubmitted (some 0) "x").getD ⟨[], sampleUnknown⟩).References,
        typeOf h1.Variables p = some g1.Type_ :=
  C16_backpatch_of_earlier_occurrences sampleStatic sampleEvaluatesTo sampleUnion sampleUnknown
    oneXSubmitted (some 0) (some 1)
    ⟨some [("x", ⟨[some 0], sampleInt⟩)], [], none, none, none⟩
    [("x", ⟨[some 0], sampleInt⟩)] ⟨.ident "x" sampleString, sampleString⟩ "x"
    rfl rfl rfl rfl (by decide)

/-- C17, evaluated: in the file set that `NewFileSet` returns, the superglobal scope of the
program scope exists but its `Identifiers` map is nil, so every write `Identifiers[k] = v` to
it fails, whereas the scope that `NewSuperGlobalScope` returns has an initialised, empty map
that accepts the write. -/
theorem C17_new_file_set_superglobal_map_is_nil (h : Heap Expr T Stmt) :
    (∃ fs sc sg, deref (NewFileSet h).1.FileSets (NewFileSet h).2 = some fs ∧
      deref (NewFileSet h).1.Scopes fs.Scope = some sc ∧
      deref (NewFileSet h).1.SuperGlobalScopes sc.SuperGlobalScope = some sg ∧
      sg.Identifiers = none ∧ ∀ k v, sg.Identifiers.set k v = none) ∧
    (∃ sg, deref (NewSuperGlobalScope h).1.SuperGlobalScopes (NewSuperGlobalScope h).2 = some sg ∧
      sg.Identifiers = some [] ∧ ∀ k v, sg.Identifiers.set k v = some (some [(k, v)])) := by
  have hsc : deref (NewFileSet h).1.Scopes (some h.Scopes.length)
      = some ⟨some [], [], none, some h.GlobalScopes.length,
          some h.SuperGlobalScopes.length⟩ := by
    rw [newFileSet_scopes]
    exact deref_append_new _ _
  have hsg : deref (NewFileSet h).1.SuperGlobalScopes (some h.SuperGlobalScopes.length)
      = some ⟨none⟩ := by
    rw [newFileSet_superGlobalScopes]
    exact deref_append_new _ _
  refine ⟨⟨_, _, _, newFileSet_deref h, hsc, hsg, rfl, fun _ _ => rfl⟩, ?_⟩
  exact ⟨_, deref_alloc _ _, rfl, fun _ _ => rfl⟩

/-- C18: take a scope built by `NewScope` to which any sequence `pre` of occurrences has been
submitted, and an occurrence `v` with static name `n`. `Scope.Variable(v)` returns, and in the
scope the group under every other name is unchanged, no key other than `n` is new,
`DynamicVariables` and the three links are unchanged; every other scope object and the
namespaces, file sets, global and superglobal scopes are unchanged as well. -/
theorem C18_static_submission_changes_only_its_entry (Static : Expr → Option String)
    (EvaluatesTo : Variable Expr T → T) (Union : T → T → T) (Unknown : T)
    (h : Heap Expr T Stmt) (parent global superGlobal : Ptr) (pre : List Ptr) (v : Ptr)
    (n : String) (hpre : ∀ p ∈ pre, (deref h.Variables p).isSome)
    (hv : nameOf Static h.Variables v = some n) :
    ∃ h1 h2 sc1 sc2,
      submitAll Static EvaluatesTo Union Unknown (NewScope h parent global superGlobal).1
        (NewScope h parent global superGlobal).2 pre = some h1 ∧
      Scope.Variable Static EvaluatesTo Union Unknown h1
        (NewScope h parent global superGlobal).2 v = some h2 ∧
      deref h1.Scopes (NewScope h parent global superGlobal).2 = some sc1 ∧
      deref h2.Scopes (NewScope h parent global superGlobal).2 = some sc2 ∧
      (∀ k, k ≠ n → sc2.Identifiers.get k = sc1.Identifiers.get k) ∧
      (∀ k, k ∈ sc2.Identifiers.keys ↔ k ∈ sc1.Identifiers.keys ∨ k = n) ∧
      sc2.DynamicVariables = sc1.DynamicVariables ∧
      sc2.EnclosingScope = sc1.EnclosingScope ∧ sc2.GlobalScope = sc1.GlobalScope ∧
      sc2.SuperGlobalScope = sc1.SuperGlobalScope ∧
      (∀ q, q ≠ (NewScope h parent global superGlobal).2 →
        deref h2.Scopes q = deref h1.Scopes q) ∧
      h2.GlobalScopes = h1.GlobalScopes ∧ h2.SuperGlobalScopes = h1.SuperGlobalScopes ∧
      h2.Namespaces = h1.Namespaces ∧ h2.FileSets = h1.FileSets := by
  obtain ⟨h1, hrun, hvalid1, hsame1⟩ := submitAll_valid Static EvaluatesTo Union Unknown
    (newScope_valid h parent global superGlobal) pre hpre
  have hv1 : nameOf Static h1.Variables v = some n := by
    rw [hsame1.nameOf, newScope_variables]
    exact hv
  obtain ⟨x1, hx1, hn1⟩ := deref_of_nameOf hv1
  obtain ⟨sc1, m, hs, hm, hrefs⟩ := hvalid1
  have hold : ∀ p ∈ ((m.lookup n).getD ⟨[], Unknown⟩).References,
      (deref h1.Variables p).isSome := by
    intro p hp
    cases hlk : m.lookup n with
    | none => simp [hlk] at hp
    | some g =>
      simp only [hlk, Option.getD_some] at hp
      exact hrefs n g hlk p hp
  obtain ⟨a, vars1, ha_eq, ha, -, -, hcall⟩ :=
    variable_static_step Static EvaluatesTo Union Unknown hx1 hn1 hs hm hold
  rw [ha_eq] at hs hrun hcall ⊢
  refine ⟨h1, _, sc1, _, hrun, hcall, hs, deref_set_self ha _, ?_, ?_, rfl, rfl, rfl, rfl, ?_,
    rfl, rfl, rfl, rfl⟩
  · intro k hk
    simp [hm, GoMap.get, Entries.lookup_assign_ne _ _ hk]
  · intro k
    simp [hm, GoMap.keys, Entries.mem_keys_assign]
  · intro q hq
    simp [deref_set, hq]

/-- C18 at the second occurrence of `x`, submitted after the first. -/
theorem C18_static_submission_changes_only_its_entry_witness :
    ∃ h1 h2 sc1 sc2,
      submitAll sampleStatic sampleEvaluatesTo sampleUnion sampleUnknown
        (NewScope (twoX sampleInt sampleString) none none none).1
        (NewScope (twoX sampleInt sampleString) none none none).2 [some 0] = some h1 ∧
      Scope.Variable sampleStatic sampleEvaluatesTo sampleUnion sampleUnknown h1
        (NewScope (twoX sampleInt sampleString) none none none).2 (some 1) = some h2 ∧
      deref h1.Scopes (NewScope (twoX sampleInt sampleString) none none none).2 = some sc1 ∧
      deref h2.Scopes (NewScope (twoX sampleInt sampleString) none none none).2 = some sc2 ∧
      (∀ k, k ≠ "x" → sc2.Identifiers.get k = sc1.Identifiers.get k) ∧
      (∀ k, k ∈ sc2.Identifiers.keys ↔ k ∈ sc1.Identifiers.keys ∨ k = "x") ∧
      sc2.DynamicVariables = sc1.DynamicVariables ∧
      sc2.EnclosingScope = sc1.EnclosingScope ∧ sc2.GlobalScope = sc1.GlobalScope ∧
      sc2.SuperGlobalScope = sc1.SuperGlobalScope ∧
      (∀ q, q ≠ (NewScope (twoX sampleInt sampleString) none none none).2 →
        deref h2.Scopes q = deref h1.Scopes q) ∧
      h2.GlobalScopes = h1.GlobalScopes ∧ h2.SuperGlobalScopes = h1.SuperGlobalScopes ∧
      h2.Namespaces = h1.Namespaces ∧ h2.FileSets = h1.FileSets :=
  C18_static_submission_changes_only_its_entry sampleStatic sampleEvaluatesTo sampleUnion
    sampleUnknown (twoX sampleInt sampleString) none none none [some 0] (some 1) "x"
    (by decide) (by decide)

/-- C19: on a file set from `NewFileSet`, after any sequence of lookups (all of which return),
every registry entry `(k, ns)` addresses a namespace with `Name = k`, and a further lookup
`Namespace(name)` returns an instance with `Name = name`. -/
theorem C19_registry_key_is_namespace_name (h : Heap Expr T Stmt) (names : List String)
    (name : String) :
    ∃ h1 h2 p, lookupAll (NewFileSet h).1 (NewFileSet h).2 names = some h1 ∧
      (∀ k q, (registryOf h1 (NewFileSet h).2).get k = some q →
        (deref h1.Namespaces q).map (fun ns => ns.Name) = some k) ∧
      FileSet.Namespace h1 (NewFileSet h).2 name = some (h2, p) ∧
      (deref h2.Namespaces p).map (fun ns => ns.Name) = some name := by
  obtain ⟨h1, hrun, hok1, -⟩ := lookupAll_effect (newFileSet_ok h) names
  obtain ⟨h2, p, hcall, hok2, hget, -⟩ := namespace_effect hok1 name
  refine ⟨h1, h2, p, hrun, ?_, hcall, ?_⟩
  · intro k q hk
    obtain ⟨a, ns, r, -, hd, hname, -⟩ := fileSetOK_entry hok1 hk
    simp [hd, hname]
  · obtain ⟨a, ns, r, -, hd, hname, -⟩ := fileSetOK_entry hok2 hget
    simp [hd, hname]

end EffectClaims

/-! ## Constant registration -/

section ConstantClaims

variable {Expr T Stmt : Type}

theorem registerConstant_step {h : Heap Expr T Stmt} {ns : Ptr} {o : Namespace Stmt}
    {cs : Entries (List Ptr)} (name : String) (v : Ptr)
    (hns : deref h.Namespaces ns = some o) (hcs : o.Constants = some cs) :
    ∃ a, ns = some a ∧ a < h.Namespaces.length ∧
      registerConstant h ns name v
        = some { h with
            Namespaces := h.Namespaces.set a
              { o with
                Constants := some (cs.assign name ((cs.lookup name).getD [] ++ [v])) } } := by
  obtain ⟨a, rfl, ha, hst⟩ := store_of_deref hns
    ({ o with Constants := some (cs.assign name ((cs.lookup name).getD [] ++ [v])) } :
      Namespace Stmt)
  refine ⟨a, rfl, ha, ?_⟩
  cases hlk : cs.lookup name with
  | none =>
    simp only [hlk, Option.getD_none] at hst
    simp only [registerConstant, hns, hcs, GoMap.set, GoMap.index, GoMap.get, hlk, hst,
      Option.getD_none]
  | some old =>
    simp only [hlk, Option.getD_some] at hst
    simp only [registerConstant, hns, hcs, GoMap.set, GoMap.index, GoMap.get, hlk, hst,
      Option.getD_some]

/-- C15, on the registration modelled from the spec: in a namespace whose `Constants` map is
initialised, registering `v1` and then `v2` under the same name returns both times and leaves
the sequence of that name as the earlier sequence followed by `v1` and then `v2` (one element
more per registration, earlier elements unchanged); the sequences of other names are
unchanged. -/
theorem C15_constant_registration_appends (h : Heap Expr T Stmt) (ns : Ptr)
    (o : Namespace Stmt) (cs : Entries (List Ptr)) (name : String) (v1 v2 : Ptr)
    (hns : deref h.Namespaces ns = some o) (hcs : o.Constants = some cs) :
    ∃ h1 h2 o1 o2, registerConstant h ns name v1 = some h1 ∧
      registerConstant h1 ns name v2 = some h2 ∧
      deref h1.Namespaces ns = some o1 ∧ deref h2.Namespaces ns = some o2 ∧
      o1.Constants.index name [] = o.Constants.index name [] ++ [v1] ∧
      o2.Constants.index name [] = o.Constants.index name [] ++ [v1, v2] ∧
      (∀ k, k ≠ name → o2.Constants.get k = o.Constants.get k) := by
  obtain ⟨a, rfl, ha, hcall1⟩ := registerConstant_step name v1 hns hcs
  have hns1 : deref ({ h with
      Namespaces := h.Namespaces.set a
        { o with
          Constants := some (cs.assign name ((cs.lookup name).getD [] ++ [v1])) } } :
        Heap Expr T Stmt).Namespaces (some a) = some _ := deref_set_self ha _
  obtain ⟨b, hb, hb_lt, hcall2⟩ := registerConstant_step name v2 hns1 rfl
  cases hb
  refine ⟨_, _, _, _, hcall1, hcall2, hns1, deref_set_self hb_lt _, ?_, ?_, ?_⟩
  · simp only [GoMap.index, GoMap.get, hcs, Entries.lookup_assign_self]
    cases cs.lookup name <;> rfl
  · simp only [GoMap.index, GoMap.get, hcs, Entries.lookup_assign_self, Option.getD_some]
    cases cs.lookup name <;> simp
  · intro k hk
    simp only [GoMap.get, hcs, Entries.lookup_assign_ne _ _ hk]

/-- C15 at a namespace from `NewNamespace` and two occurrences registered as `PI`. -/
theorem C15_constant_registration_appends_witness :
    ∃ h1 h2 o1 o2, registerConstant (NewNamespace emptyHeap "App").1 (some 0) "PI" (some 0)
        = some h1 ∧
      registerConstant h1 (some 0) "PI" (some 1) = some h2 ∧
      deref h1.Namespaces (some 0) = some o1 ∧ deref h2.Namespaces (some 0) = some o2 ∧
      o1.Constants.index "PI" []
        = (⟨"App", some [], some [], some []⟩ : Namespace Unit).Constants.index "PI" []
          ++ [some 0] ∧
      o2.Constants.index "PI" []
        = (⟨"App", some [], some [], some []⟩ : Namespace Unit).Constants.index "PI" []
          ++ [some 0, some 1] ∧
      (∀ k, k ≠ "PI" → o2.Constants.get k
        = (⟨"App", some [], some [], some []⟩ : Namespace Unit).Constants.get k) :=
  C15_constant_registration_appends (NewNamespace emptyHeap "App").1 (some 0)
    ⟨"App", some [], some [], some []⟩ [] "PI" (some 0) (some 1) rfl rfl

end ConstantClaims

/-! ## Monotone growth of the inferred types -/

section Monotone

variable {Expr T Stmt : Type}

theorem refsNamed_new (Static : Expr → Option String) (h : Heap Expr T Stmt)
    (parent global superGlobal : Ptr) :
    RefsNamed Static (NewScope h parent global superGlobal).1
      (NewScope h parent global superGlobal).2 := by
  intro k g hk
  rw [newScope_groupOf] at hk
  cases hk

/-- One call keeps the references of each group under the name of the group. -/
theorem variable_keeps_refsNamed (Static : Expr → Option String)
    (EvaluatesTo : Variable Expr T → T) (Union : T → T → T) (Unknown : T)
    {h h1 : Heap Expr T Stmt} {s v : Ptr} (hvalid : ScopeValid h s)
    (hnamed : RefsNamed Static h s)
    (hcall : Scope.Variable Static EvaluatesTo Union Unknown h s v = some h1) :
    RefsNamed Static h1 s := by
  cases hx : deref h.Variables v with
  | none => simp [Scope.Variable, hx] at hcall
  | some x =>
    cases hn : Static x.Name with
    | none =>
      obtain ⟨h2, hcall2, -, hvars, hgroups, -⟩ :=
        variable_dynamic_effect Static EvaluatesTo Union Unknown hvalid hx hn
      rw [hcall] at hcall2
      cases hcall2
      intro k g hk p hp
      rw [hgroups] at hk
      rw [hvars]
      exact hnamed k g hk p hp
    | some n =>
      obtain ⟨h2, hcall2, -, hsame, hgroups, -⟩ :=
        variable_static_effect Static EvaluatesTo Union Unknown hvalid hx hn
      rw [hcall] at hcall2
      cases hcall2
      intro k g hk p hp
      rw [hgroups] at hk
      rw [hsame.nameOf]
      by_cases hkn : k = n
      · subst hkn
        simp only [if_true, Option.some.injEq] at hk
        subst hk
        rcases List.mem_append.mp hp with hp | hp
        · cases hold : groupOf h s k with
          | none => simp [hold] at hp
          | some g0 =>
            simp only [hold, Option.getD_some] at hp
            exact hnamed k g0 hold p hp
        · simp only [List.mem_singleton] at hp
          subst hp
          rw [nameOf_of_deref hx]
          exact hn
      · simp only [hkn, if_false] at hk
        exact hnamed k g hk p hp

/-- Along any sequence of submissions the type of a group only grows in the order
`a ≤ b ↔ Union a b = b`, and occurrences of the group that hold the group's type keep holding
the group's type. -/
theorem submitAll_monotone (Static : Expr → Option String)
    (EvaluatesTo : Variable Expr T → T) (Union : T → T → T) (Unknown : T)
    (hidem : ∀ a, Union a a = a)
    (hassoc : ∀ a b c, Union (Union a b) c = Union a (Union b c))
    {h : Heap Expr T Stmt} {s : Ptr} (hvalid : ScopeValid h s)
    (hnamed : RefsNamed Static h s) (n : String) (g : VariableGroup T)
    (hg : groupOf h s n = some g) (R : List Ptr) (hR : ∀ p ∈ R, p ∈ g.References)
    (hsync : ∀ p ∈ R, typeOf h.Variables p = some g.Type_)
    (vs : List Ptr) (hvs : ∀ v ∈ vs, (deref h.Variables v).isSome) :
    ∃ h1 g1, submitAll Static EvaluatesTo Union Unknown h s vs = some h1 ∧
      groupOf h1 s n = some g1 ∧ Union g.Type_ g1.Type_ = g1.Type_ ∧
      ∀ p ∈ R, typeOf h1.Variables p = some g1.Type_ := by
  induction vs generalizing h g with
  | nil => exact ⟨h, g, rfl, hg, hidem _, hsync⟩
  | cons v vs ih =>
    obtain ⟨x, hx⟩ := Option.isSome_iff_exists.mp (hvs v (List.mem_cons_self _ _))
    cases hn : Static x.Name with
    | none =>
      obtain ⟨h1, hcall, hvalid1, hvars, hgroups, -⟩ :=
        variable_dynamic_effect Static EvaluatesTo Union Unknown hvalid hx hn
      have hnamed1 := variable_keeps_refsNamed Static EvaluatesTo Union Unknown hvalid hnamed
        hcall
      obtain ⟨h2, g2, hrun, hg2, hle, hsync2⟩ := ih hvalid1 hnamed1 g
        (by rw [hgroups]; exact hg) hR (by rw [hvars]; exact hsync)
        (by rw [hvars]; exact fun w hw => hvs w (List.mem_cons_of_mem _ hw))
      refine ⟨h2, g2, ?_, hg2, hle, hsync2⟩
      simp only [submitAll, hcall]
      exact hrun
    | some m =>
      obtain ⟨h1, hcall, hvalid1, hsame, hgroups, htypes, -⟩ :=
        variable_static_effect Static EvaluatesTo Union Unknown hvalid hx hn
      have hnamed1 := variable_keeps_refsNamed Static EvaluatesTo Union Unknown hvalid hnamed
        hcall
      have hvs1 : ∀ w ∈ vs, (deref h1.Variables w).isSome := by
        intro w hw
        rw [hsame.isSome]
        exact hvs w (List.mem_cons_of_mem _ hw)
      by_cases hmn : m = n
      · subst hmn
        have hg1 : groupOf h1 s m = some ⟨g.References ++ [v], Union g.Type_ (EvaluatesTo x)⟩ := by
          rw [hgroups m, hg]
          simp
        obtain ⟨h2, g2, hrun, hg2, hle, hsync2⟩ := ih hvalid1 hnamed1 _ hg1
          (fun p hp => List.mem_append_left _ (hR p hp))
          (by
            intro p hp
            rw [htypes p, hg]
            simp [hR p hp, hsync p hp])
          hvs1
        refine ⟨h2, g2, ?_, hg2, ?_, hsync2⟩
        · simp only [submitAll, hcall]
          exact hrun
        · simp only at hle
          rw [← hle, ← hassoc, ← hassoc, hidem]
      · have hg1 : groupOf h1 s n = some g := by
          rw [hgroups n]
          have hnm : ¬ n = m := fun e => hmn e.symm
          simp [hnm, hg]
        obtain ⟨h2, g2, hrun, hg2, hle, hsync2⟩ := ih hvalid1 hnamed1 g hg1 hR
          (by
            intro p hp
            rw [htypes p]
            have hnot : p ∉ ((groupOf h s m).getD ⟨[], Unknown⟩).References := by
              intro hin
              cases hold : groupOf h s m with
              | none => simp [hold] at hin
              | some gm =>
                simp only [hold, Option.getD_some] at hin
                have h1n := hnamed m gm hold p hin
                have h2n := hnamed n g hg p (hR p hp)
                rw [h1n] at h2n
                exact hmn (Option.some.inj h2n)
            simp [hnot, hsync p hp])
          hvs1
        refine ⟨h2, g2, ?_, hg2, hle, hsync2⟩
        simp only [submitAll, hcall]
        exact hrun

end Monotone

/-! ## The monotonicity claim -/

section MonotoneClaim

variable {Expr T Stmt : Type}

theorem submitAll_keeps_refsNamed (Static : Expr → Option String)
    (EvaluatesTo : Variable Expr T → T) (Union : T → T → T) (Unknown : T)
    {h : Heap Expr T Stmt} {s : Ptr} (hvalid : ScopeValid h s)
    (hnamed : RefsNamed Static h s) (vs : List Ptr)
    (hvs : ∀ v ∈ vs, (deref h.Variables v).isSome) :
    ∃ h1, submitAll Static EvaluatesTo Union Unknown h s vs = some h1 ∧
      ScopeValid h1 s ∧ SameNames h.Variables h1.Variables ∧ RefsNamed Static h1 s := by
  induction vs generalizing h with
  | nil => exact ⟨h, rfl, hvalid, SameNames.refl _, hnamed⟩
  | cons v vs ih =>
    obtain ⟨h1, h2, hrun1, hcall, -, hvalid2, -, hsame2⟩ :=
      submitAll_then_one Static EvaluatesTo Union Unknown hvalid [] v (by simp)
        (hvs v (List.mem_cons_self _ _))
    simp only [submitAll, Option.some.injEq] at hrun1
    subst hrun1
    have hnamed2 := variable_keeps_refsNamed Static EvaluatesTo Union Unknown hvalid hnamed
      hcall
    obtain ⟨h3, hrun, hvalid3, hsame3, hnamed3⟩ := ih hvalid2 hnamed2 (by
      intro w hw
      rw [hsame2.isSome]
      exact hvs w (List.mem_cons_of_mem _ hw))
    refine ⟨h3, ?_, hvalid3, hsame2.trans hsame3, hnamed3⟩
    simp only [submitAll, hcall]
    exact hrun

/-- C13: let `Union` be idempotent and associative, and write `a ≤ b` for `Union a b = b`.
Take a scope built by `NewScope` after any submissions `pre`, and an occurrence `v` with static
name `n`. `Scope.Variable(v)` returns and the type of group `n` afterwards is `≥` its type
before (`Unknown` when `n` had no group). After any further submissions `more` the type of the
group is `≥` again, and each occurrence that was recorded for `n` before the call holds, after
the call and after the further submissions, the type of the group at that moment: the types
written onto it by backpatching never decrease. -/
theorem C13_inferred_types_never_decrease (Static : Expr → Option String)
    (EvaluatesTo : Variable Expr T → T) (Union : T → T → T) (Unknown : T)
    (hidem : ∀ a, Union a a = a)
    (hassoc : ∀ a b c, Union (Union a b) c = Union a (Union b c))
    (h : Heap Expr T Stmt) (parent global superGlobal : Ptr) (pre more : List Ptr) (v : Ptr)
    (n : String) (hpre : ∀ p ∈ pre, (deref h.Variables p).isSome)
    (hv : nameOf Static h.Variables v = some n)
    (hmore : ∀ p ∈ more, (deref h.Variables p).isSome) :
    ∃ h1 h2 h3 g2 g3,
      submitAll Static EvaluatesTo Union Unknown (NewScope h parent global superGlobal).1
        (NewScope h parent global superGlobal).2 pre = some h1 ∧
      Scope.Variable Static EvaluatesTo Union Unknown h1
        (NewScope h parent global superGlobal).2 v = some h2 ∧
      submitAll Static EvaluatesTo Union Unknown h2
        (NewScope h parent global superGlobal).2 more = some h3 ∧
      groupOf h2 (NewScope h parent global superGlobal).2 n = some g2 ∧
      groupOf h3 (NewScope h parent global superGlobal).2 n = some g3 ∧
      Union ((groupOf h1 (NewScope h parent global superGlobal).2 n).getD
        ⟨[], Unknown⟩).Type_ g2.Type_ = g2.Type_ ∧
      Union g2.Type_ g3.Type_ = g3.Type_ ∧
      ∀ p ∈ ((groupOf h1 (NewScope h parent global superGlobal).2 n).getD
          ⟨[], Unknown⟩).References,
        typeOf h2.Variables p = some g2.Type_ ∧ typeOf h3.Variables p = some g3.Type_ := by
  obtain ⟨h1, hrun1, hvalid1, hsame1, hnamed1⟩ :=
    submitAll_keeps_refsNamed Static EvaluatesTo Union Unknown
      (newScope_valid h parent global superGlobal)
      (refsNamed_new Static h parent global superGlobal) pre hpre
  have hv1 : nameOf Static h1.Variables v = some n := by
    rw [hsame1.nameOf, newScope_variables]
    exact hv
  obtain ⟨x1, hx1, hn1⟩ := deref_of_nameOf hv1
  obtain ⟨h2, hcall, hvalid2, hsame2, hgroups, htypes, -⟩ :=
    variable_static_effect Static EvaluatesTo Union Unknown hvalid1 hx1 hn1
  have hnamed2 := variable_keeps_refsNamed Static EvaluatesTo Union Unknown hvalid1 hnamed1
    hcall
  have hg2 : groupOf h2 (NewScope h parent global superGlobal).2 n
      = some ⟨((groupOf h1 (NewScope h parent global superGlobal).2 n).getD
          ⟨[], Unknown⟩).References ++ [v],
        Union ((groupOf h1 (NewScope h parent global superGlobal).2 n).getD
          ⟨[], Unknown⟩).Type_ (EvaluatesTo x1)⟩ := by
    rw [hgroups n]
    simp
  have hold : ∀ p ∈ ((groupOf h1 (NewScope h parent global superGlobal).2 n).getD
      ⟨[], Unknown⟩).References, (deref h1.Variables p).isSome := by
    intro p hp
    obtain ⟨sc, m, hs, hm, hrefs⟩ := hvalid1
    have hgm : groupOf h1 (NewScope h parent global superGlobal).2 n = m.lookup n := by
      simp [groupOf, hs, hm, GoMap.get]
    rw [hgm] at hp
    cases hlk : m.lookup n with
    | none => simp [hlk] at hp
    | some g =>
      simp only [hlk, Option.getD_some] at hp
      exact hrefs n g hlk p hp
  have hsync2 : ∀ p ∈ ((groupOf h1 (NewScope h parent global superGlobal).2 n).getD
      ⟨[], Unknown⟩).References,
      typeOf h2.Variables p
        = some (Union ((groupOf h1 (NewScope h parent global superGlobal).2 n).getD
            ⟨[], Unknown⟩).Type_ (EvaluatesTo x1)) := by
    intro p hp
    obtain ⟨y, hy⟩ := Option.isSome_iff_exists.mp (hold p hp)
    rw [htypes p]
    simp [hp, typeOf, hy]
  have hmore2 : ∀ p ∈ more, (deref h2.Variables p).isSome := by
    intro p hp
    rw [hsame2.isSome, hsame1.isSome, newScope_variables]
    exact hmore p hp
  obtain ⟨h3, g3, hrun3, hg3, hle3, hsync3⟩ :=
    submitAll_monotone Static EvaluatesTo Union Unknown hidem hassoc hvalid2 hnamed2 n _ hg2
      ((groupOf h1 (NewScope h parent global superGlobal).2 n).getD ⟨[], Unknown⟩).References
      (fun p hp => List.mem_append_left _ hp) hsync2 more hmore2
  refine ⟨h1, h2, h3, _, g3, hrun1, hcall, hrun3, hg2, hg3, ?_, hle3, ?_⟩
  · simp only
    rw [← hassoc, hidem]
  · intro p hp
    exact ⟨hsync2 p hp, hsync3 p hp⟩

/-- C13 at three occurrences: `x` (Int), then `x` (String), then `x` (Int) again. -/
theorem C13_inferred_types_never_decrease_witness :
    ∃ h1 h2 h3 g2 g3,
      submitAll sampleStatic sampleEvaluatesTo sampleUnion sampleUnknown
        (NewScope (twoX sampleInt sampleString) none none none).1
        (NewScope (twoX sampleInt sampleString) none none none).2 [some 0] = some h1 ∧
      Scope.Variable sampleStatic sampleEvaluatesTo sampleUnion sampleUnknown h1
        (NewScope (twoX sampleInt sampleString) none none none).2 (some 1) = some h2 ∧
      submitAll sampleStatic sampleEvaluatesTo sampleUnion sampleUnknown h2
        (NewScope (twoX sampleInt sampleString) none none none).2 [some 0] = some h3 ∧
      groupOf h2 (NewScope (twoX sampleInt sampleString) none none none).2 "x" = some g2 ∧
      groupOf h3 (NewScope (twoX sampleInt sampleString) none none none).2 "x" = some g3 ∧
      sampleUnion ((groupOf h1 (NewScope (twoX sampleInt sampleString) none none none).2
        "x").getD ⟨[], sampleUnknown⟩).Type_ g2.Type_ = g2.Type_ ∧
      sampleUnion g2.Type_ g3.Type_ = g3.Type_ ∧
      ∀ p ∈ ((groupOf h1 (NewScope (twoX sampleInt sampleString) none none none).2
          "x").getD ⟨[], sampleUnknown⟩).References,
        typeOf h2.Variables p = some g2.Type_ ∧ typeOf h3.Variables p = some g3.Type_ :=
  C13_inferred_types_never_decrease sampleStatic sampleEvaluatesTo sampleUnion sampleUnknown
    Nat.or_self Nat.lor_assoc (twoX sampleInt sampleString) none none none [some 0] [some 0]
    (some 1) "x" (by decide) (by decide) (by decide)

end MonotoneClaim

/-! ## Scope links -/

section Links

variable {Expr T Stmt : Type}

theorem store_eq_some_iff {α : Type} {heap heap1 : List α} {p : Ptr} {x : α}
    (hst : store heap p x = some heap1) :
    ∃ a, p = some a ∧ a < heap.length ∧ heap1 = heap.set a x := by
  cases p with
  | none => simp [store] at hst
  | some a =>
    by_cases ha : a < heap.length
    · simp only [store, ha, if_true, Option.some.injEq] at hst
      exact ⟨a, rfl, ha, hst.symm⟩
    · simp [store, ha] at hst

/-- A call of `Scope.Variable` that returns replaces the scope object of the receiver by one
with the same three links and changes no other scope object. -/
theorem variable_scopes (Static : Expr → Option String)
    (EvaluatesTo : Variable Expr T → T) (Union : T → T → T) (Unknown : T)
    {h h1 : Heap Expr T Stmt} {s v : Ptr}
    (hcall : Scope.Variable Static EvaluatesTo Union Unknown h s v = some h1) :
    ∃ a sc sc1, s = some a ∧ a < h.Scopes.length ∧ deref h.Scopes s = some sc ∧
      h1.Scopes = h.Scopes.set a sc1 ∧ linksOf sc1 = linksOf sc := by
  unfold Scope.Variable at hcall
  cases hx : deref h.Variables v with
  | none => simp [hx] at hcall
  | some x =>
    cases hsc : deref h.Scopes s with
    | none =>
      simp only [hx, hsc] at hcall
      cases hn : Static x.Name <;> simp [hn] at hcall
    | some sc =>
      simp only [hx, hsc] at hcall
      cases hn : Static x.Name with
      | none =>
        simp only [hn] at hcall
        cases hst : store h.Scopes s
            { sc with DynamicVariables := sc.DynamicVariables ++ [v] } with
        | none => simp [hst] at hcall
        | some scopes =>
          simp only [hst, Option.some.injEq] at hcall
          obtain ⟨a, rfl, ha, hset⟩ := store_eq_some_iff hst
          subst hcall
          exact ⟨a, sc, _, rfl, ha, rfl, hset, rfl⟩
      | some n =>
        simp only [hn] at hcall
        split at hcall
        · cases hcall
        · split at hcall
          · cases hcall
          · split at hcall
            · cases hcall
            · rename_i scopes hst
              simp only [Option.some.injEq] at hcall
              obtain ⟨a, rfl, ha, hset⟩ := store_eq_some_iff hst
              subst hcall
              exact ⟨a, sc, _, rfl, ha, rfl, hset, rfl⟩

theorem variable_links (Static : Expr → Option String)
    (EvaluatesTo : Variable Expr T → T) (Union : T → T → T) (Unknown : T)
    {h h1 : Heap Expr T Stmt} {s v : Ptr}
    (hcall : Scope.Variable Static EvaluatesTo Union Unknown h s v = some h1) (q : Ptr) :
    (deref h1.Scopes q).map linksOf = (deref h.Scopes q).map linksOf := by
  obtain ⟨a, sc, sc1, rfl, ha, hsc, hset, hlinks⟩ :=
    variable_scopes Static EvaluatesTo Union Unknown hcall
  rw [hset, deref_set]
  by_cases hq : q = some a
  · subst hq
    simp [ha, hsc, hlinks]
  · simp [hq]

theorem namespace_scopes {h h1 : Heap Expr T Stmt} {f p : Ptr} {name : String}
    (hcall : FileSet.Namespace h f name = some (h1, p)) : h1.Scopes = h.Scopes := by
  unfold FileSet.Namespace at hcall
  cases hf : deref h.FileSets f with
  | none => simp [hf] at hcall
  | some fs =>
    simp only [hf] at hcall
    split at hcall
    · split at hcall
      · cases hcall
      · split at hcall
        · cases hcall
        · simp only [Option.some.injEq, Prod.mk.injEq] at hcall
          rw [← hcall.1]
          rfl
    · simp only [Option.some.injEq, Prod.mk.injEq] at hcall
      rw [hcall.1]

theorem parentsOlder_append {scopes : List (Scope T)} (hold : ParentsOlder scopes)
    (sc : Scope T) (hparent : ∀ b, sc.EnclosingScope = some b → b < scopes.length) :
    ParentsOlder (scopes ++ [sc]) := by
  intro a sc1 ha b hb
  by_cases hlt : a < scopes.length
  · rw [List.getElem?_append_left hlt] at ha
    exact hold a sc1 ha b hb
  · have hlen : a < (scopes ++ [sc]).length := (List.getElem?_eq_some.mp ha).1
    simp only [List.length_append, List.length_singleton] at hlen
    have haeq : a = scopes.length := by omega
    subst haeq
    simp only [List.getElem?_concat_length, Option.some.injEq] at ha
    subst ha
    exact hparent b hb

/-- In every heap built by the functions of `scope.go`, parents are older than their
children. -/
theorem built_parentsOlder {h : Heap Expr T Stmt} (hb : Built h) : ParentsOlder h.Scopes := by
  induction hb with
  | start h hnone =>
    intro a sc ha
    simp [hnone] at ha
  | newScope h parent global superGlobal _ hparent ih =>
    refine parentsOlder_append ih _ ?_
    intro b hpb
    rcases hparent with hnil | hsome
    · simp only at hpb
      rw [hnil] at hpb
      cases hpb
    · simp only at hpb
      rw [hpb] at hsome
      obtain ⟨x, hx⟩ := Option.isSome_iff_exists.mp hsome
      exact deref_some_lt hx
  | newFileSet h _ ih =>
    rw [newFileSet_scopes]
    refine parentsOlder_append ih _ ?_
    intro b hpb
    cases hpb
  | newGlobalScope h ns _ ih => exact ih
  | newSuperGlobalScope h _ ih => exact ih
  | newNamespace h name _ ih => exact ih
  | submit Static EvaluatesTo Union Unknown h h1 s v _ hcall ih =>
    intro a sc1 ha b hpb
    have hl := variable_links Static EvaluatesTo Union Unknown hcall (some a)
    simp only [deref, ha, Option.map_some'] at hl
    cases hsc : h.Scopes[a]? with
    | none => simp [hsc] at hl
    | some sc =>
      simp only [hsc, Option.map_some', Option.some.injEq, linksOf, Prod.mk.injEq] at hl
      exact ih a sc hsc b (by rw [← hl.1]; exact hpb)
  | lookup h h1 f p name _ hcall ih =>
    rw [namespace_scopes hcall]
    exact ih

/-- When parents are older than their children, the chain of enclosing scopes of any scope
ends at the empty link, and all scopes met after the first have smaller addresses. -/
theorem enclosingChain_of_parentsOlder {scopes : List (Scope T)} (hold : ParentsOlder scopes)
    (a : Nat) : a < scopes.length → ∀ fuel, a < fuel →
      ∃ rest, enclosingChain scopes fuel (some a) = some (a :: rest) ∧ ∀ b ∈ rest, b < a := by
  induction a using Nat.strong_induction_on with
  | _ a ih =>
    intro ha fuel hfuel
    obtain ⟨fuel1, rfl⟩ : ∃ k, fuel = k + 1 := ⟨fuel - 1, by omega⟩
    have hget : scopes[a]? = some scopes[a] := List.getElem?_eq_getElem ha
    cases hp : (scopes[a]).EnclosingScope with
    | none =>
      refine ⟨[], ?_, by simp⟩
      simp [enclosingChain, hget, hp]
    | some b =>
      have hba : b < a := hold a _ hget b hp
      obtain ⟨rest, hchain, hrest⟩ := ih b hba (by omega) fuel1 (by omega)
      refine ⟨b :: rest, ?_, ?_⟩
      · simp [enclosingChain, hget, hp, hchain]
      · intro c hc
        rcases List.mem_cons.mp hc with rfl | hc
        · exact hba
        · exact lt_trans (hrest c hc) hba

end Links

/-! ## The enclosing-scope chain -/

section ChainClaim

variable {Expr T Stmt : Type}

/-- C14: in a heap built by `NewScope` (with a parent that is nil or an existing scope),
`NewFileSet` and the other functions of `scope.go`, following the `EnclosingScope` links from
any scope reaches the empty link within as many steps as there are scopes, and the scopes met
on the way all differ from the starting scope (they were allocated before it). `NewScope`
stores exactly the parent, global and superglobal references it is given, and a call of
`Scope.Variable` changes the three links of no scope. -/
theorem C14_enclosing_chain_finite_and_acyclic (h : Heap Expr T Stmt) (hb : Built h) :
    (∀ a, a < h.Scopes.length →
      ∃ rest, enclosingChain h.Scopes h.Scopes.length (some a) = some (a :: rest) ∧
        a ∉ rest ∧ ∀ b ∈ rest, b < a) ∧
    (∀ parent global superGlobal, ∃ sc,
      deref (NewScope h parent global superGlobal).1.Scopes
        (NewScope h parent global superGlobal).2 = some sc ∧
      sc.EnclosingScope = parent ∧ sc.GlobalScope = global ∧
      sc.SuperGlobalScope = superGlobal) ∧
    (∀ (Static : Expr → Option String) (EvaluatesTo : Variable Expr T → T)
      (Union : T → T → T) (Unknown : T) (s v : Ptr) (h1 : Heap Expr T Stmt),
      Scope.Variable Static EvaluatesTo Union Unknown h s v = some h1 →
      h1.Scopes.length = h.Scopes.length ∧
      ∀ q, (deref h1.Scopes q).map linksOf = (deref h.Scopes q).map linksOf) := by
  refine ⟨?_, ?_, ?_⟩
  · intro a ha
    obtain ⟨rest, hchain, hrest⟩ :=
      enclosingChain_of_parentsOlder (built_parentsOlder hb) a ha h.Scopes.length ha
    exact ⟨rest, hchain, fun hin => lt_irrefl a (hrest a hin), hrest⟩
  · intro parent global superGlobal
    exact ⟨_, deref_alloc _ _, rfl, rfl, rfl⟩
  · intro Static EvaluatesTo Union Unknown s v h1 hcall
    refine ⟨?_, variable_links Static EvaluatesTo Union Unknown hcall⟩
    obtain ⟨a, sc, sc1, -, -, -, hset, -⟩ :=
      variable_scopes Static EvaluatesTo Union Unknown hcall
    rw [hset, List.length_set]

/-- C14 at a scope nested in the program scope of a fresh file set. -/
theorem C14_enclosing_chain_finite_and_acyclic_witness :
    (∀ a, a < nestedScopes.Scopes.length →
      ∃ rest, enclosingChain nestedScopes.Scopes nestedScopes.Scopes.length (some a)
          = some (a :: rest) ∧
        a ∉ rest ∧ ∀ b ∈ rest, b < a) ∧
    (∀ parent global superGlobal, ∃ sc,
      deref (NewScope nestedScopes parent global superGlobal).1.Scopes
        (NewScope nestedScopes parent global superGlobal).2 = some sc ∧
      sc.EnclosingScope = parent ∧ sc.GlobalScope = global ∧
      sc.SuperGlobalScope = superGlobal) ∧
    (∀ (Static : SampleExpr → Option String) (EvaluatesTo : Variable SampleExpr Nat → Nat)
      (Union : Nat → Nat → Nat) (Unknown : Nat) (s v : Ptr) (h1 : SampleHeap),
      Scope.Variable Static EvaluatesTo Union Unknown nestedScopes s v = some h1 →
      h1.Scopes.length = nestedScopes.Scopes.length ∧
      ∀ q, (deref h1.Scopes q).map linksOf = (deref nestedScopes.Scopes q).map linksOf) :=
  C14_enclosing_chain_finite_and_acyclic nestedScopes
    (Built.newScope _ (some 0) (some 0) (some 0)
      (Built.newFileSet _ (Built.start emptyHeap rfl)) (Or.inr (by decide)))

/-- The chain of the nested scope, evaluated: from address 1 it meets address 0 and ends. -/
theorem enclosingChain_nestedScopes :
    enclosingChain nestedScopes.Scopes nestedScopes.Scopes.length (some 1) = some [1, 0] := by
  decide

end ChainClaim

/-! ## Groups in terms of the submissions made -/

section LogLemmas

variable {Expr T Stmt : Type}

theorem groupAfter_none (Union : T → T → T) (Unknown : T) (entries : List (Submission T)) :
    groupAfter Union Unknown none entries = expectedGroup Union Unknown entries := by
  cases entries <;> rfl

theorem groupAfter_cons (Union : T → T → T) (Unknown : T) (old : Option (VariableGroup T))
    (e : Submission T) (es : List (Submission T)) :
    groupAfter Union Unknown
        (some ⟨(old.getD ⟨[], Unknown⟩).References ++ [e.ref],
          Union (old.getD ⟨[], Unknown⟩).Type_ e.contribution⟩) es
      = groupAfter Union Unknown old (e :: es) := by
  cases es with
  | nil => simp [groupAfter, joinedGroup]
  | cons e1 es1 => simp [groupAfter, joinedGroup]

theorem logFor_cons_same (k : String) (e : Submission T) (log : List (Submission T))
    (hk : e.name = some k) : logFor k (e :: log) = e :: logFor k log := by
  simp [logFor, List.filter_cons, hk]

theorem logFor_cons_other (k : String) (e : Submission T) (log : List (Submission T))
    (hk : e.name ≠ some k) : logFor k (e :: log) = logFor k log := by
  simp [logFor, List.filter_cons, hk]

theorem submitLog_cons (Static : Expr → Option String)
    (EvaluatesTo : Variable Expr T → T) (Union : T → T → T) (Unknown : T)
    {h h1 : Heap Expr T Stmt} {s v : Ptr} {x : Variable Expr T} (vs : List Ptr)
    (hx : deref h.Variables v = some x)
    (hcall : Scope.Variable Static EvaluatesTo Union Unknown h s v = some h1) :
    submitLog Static EvaluatesTo Union Unknown h s (v :: vs)
      = ⟨Static x.Name, v, EvaluatesTo x⟩
          :: submitLog Static EvaluatesTo Union Unknown h1 s vs := by
  simp only [submitLog, hx, hcall]

/-- A sequence of submissions to a usable scope, told by its log: every call returns and is
logged under the static name of its occurrence, and the group of each name afterwards is the
earlier group extended by the submissions logged under that name. -/
theorem submitAll_log (Static : Expr → Option String)
    (EvaluatesTo : Variable Expr T → T) (Union : T → T → T) (Unknown : T)
    {h : Heap Expr T Stmt} {s : Ptr} (hvalid : ScopeValid h s) (vs : List Ptr)
    (hvs : ∀ v ∈ vs, (deref h.Variables v).isSome) :
    ∃ h1, submitAll Static EvaluatesTo Union Unknown h s vs = some h1 ∧
      (submitLog Static EvaluatesTo Union Unknown h s vs).map (fun e => e.ref) = vs ∧
      (submitLog Static EvaluatesTo Union Unknown h s vs).map (fun e => e.name)
        = vs.map (nameOf Static h.Variables) ∧
      ∀ k, groupOf h1 s k
        = groupAfter Union Unknown (groupOf h s k)
            (logFor k (submitLog Static EvaluatesTo Union Unknown h s vs)) := by
  induction vs generalizing h with
  | nil => exact ⟨h, rfl, rfl, rfl, fun _ => rfl⟩
  | cons v vs ih =>
    obtain ⟨x, hx⟩ := Option.isSome_iff_exists.mp (hvs v (List.mem_cons_self _ _))
    cases hn : Static x.Name with
    | none =>
      obtain ⟨h1, hcall, hvalid1, hvars, hgroups, -⟩ :=
        variable_dynamic_effect Static EvaluatesTo Union Unknown hvalid hx hn
      obtain ⟨h2, hrun, hrefs, hnames, hgr⟩ := ih hvalid1 (by
        intro w hw
        rw [hvars]
        exact hvs w (List.mem_cons_of_mem _ hw))
      refine ⟨h2, ?_, ?_, ?_, ?_⟩
      · simp only [submitAll, hcall]
        exact hrun
      · rw [submitLog_cons Static EvaluatesTo Union Unknown vs hx hcall]
        simp [hrefs]
      · rw [submitLog_cons Static EvaluatesTo Union Unknown vs hx hcall]
        rw [hvars] at hnames
        simp [hnames, nameOf_of_deref hx]
      · intro k
        rw [submitLog_cons Static EvaluatesTo Union Unknown vs hx hcall,
          logFor_cons_other k _ _ (by simp [hn]), hgr k, hgroups k]
    | some n =>
      obtain ⟨h1, hcall, hvalid1, hsame, hgroups, -⟩ :=
        variable_static_effect Static EvaluatesTo Union Unknown hvalid hx hn
      obtain ⟨h2, hrun, hrefs, hnames, hgr⟩ := ih hvalid1 (by
        intro w hw
        rw [hsame.isSome]
        exact hvs w (List.mem_cons_of_mem _ hw))
      refine ⟨h2, ?_, ?_, ?_, ?_⟩
      · simp only [submitAll, hcall]
        exact hrun
      · rw [submitLog_cons Static EvaluatesTo Union Unknown vs hx hcall]
        simp [hrefs]
      · rw [submitLog_cons Static EvaluatesTo Union Unknown vs hx hcall]
        have hfun : nameOf Static h1.Variables = nameOf Static h.Variables :=
          funext (hsame.nameOf Static)
        rw [hfun] at hnames
        simp [hnames, nameOf_of_deref hx]
      · intro k
        rw [submitLog_cons Static EvaluatesTo Union Unknown vs hx hcall, hgr k, hgroups k]
        by_cases hkn : k = n
        · subst hkn
          rw [logFor_cons_same k _ _ (by simp [hn]), ← groupAfter_cons]
          simp
        · have hne : ¬ n = k := fun e => hkn e.symm
          rw [logFor_cons_other k _ _ (by simp [hn, hne])]
          simp [hkn]

end LogLemmas

/-! ## Group types from the submissions, and the limit of order-independence -/

section RevisedClaims

variable {Expr T Stmt : Type}

/-- C2: take a scope built by `NewScope` and submit any sequence `vs` of non-nil `Variable`
pointers to it. Every call returns and is logged, in order, under the static name of its
occurrence with the contribution `EvaluatesTo()` gave in that call. Afterwards the scope holds,
for each name `k`, no group when nothing was submitted under `k`, and otherwise the group whose
`References` are exactly the occurrences submitted under `k`, in insertion order, and whose
`Type` is the join (`Union`), starting from `Unknown`, of their contributions in that order. In
particular, when `Unknown.Union(t) = t`, a name submitted once has the group with that one
reference and with `Type` equal to that occurrence's contribution. -/
theorem C2_group_type_is_join_of_contributions (Static : Expr → Option String)
    (EvaluatesTo : Variable Expr T → T) (Union : T → T → T) (Unknown : T)
    (h : Heap Expr T Stmt) (parent global superGlobal : Ptr) (vs : List Ptr)
    (hvs : ∀ v ∈ vs, (deref h.Variables v).isSome) :
    ∃ h1, submitAll Static EvaluatesTo Union Unknown (NewScope h parent global superGlobal).1
        (NewScope h parent global superGlobal).2 vs = some h1 ∧
      (submitLog Static EvaluatesTo Union Unknown (NewScope h parent global superGlobal).1
        (NewScope h parent global superGlobal).2 vs).map (fun e => e.ref) = vs ∧
      (submitLog Static EvaluatesTo Union Unknown (NewScope h parent global superGlobal).1
        (NewScope h parent global superGlobal).2 vs).map (fun e => e.name)
        = vs.map (nameOf Static h.Variables) ∧
      (∀ k, groupOf h1 (NewScope h parent global superGlobal).2 k
        = expectedGroup Union Unknown
            (logFor k (submitLog Static EvaluatesTo Union Unknown
              (NewScope h parent global superGlobal).1
              (NewScope h parent global superGlobal).2 vs))) ∧
      ((∀ t, Union Unknown t = t) → ∀ k e,
        logFor k (submitLog Static EvaluatesTo Union Unknown
          (NewScope h parent global superGlobal).1
          (NewScope h parent global superGlobal).2 vs) = [e] →
        groupOf h1 (NewScope h parent global superGlobal).2 k
          = some ⟨[e.ref], e.contribution⟩) := by
  obtain ⟨h1, hrun, hrefs, hnames, hgroups⟩ :=
    submitAll_log Static EvaluatesTo Union Unknown
      (newScope_valid h parent global superGlobal) vs hvs
  have hexp : ∀ k, groupOf h1 (NewScope h parent global superGlobal).2 k
      = expectedGroup Union Unknown
          (logFor k (submitLog Static EvaluatesTo Union Unknown
            (NewScope h parent global superGlobal).1
            (NewScope h parent global superGlobal).2 vs)) := by
    intro k
    rw [hgroups k, newScope_groupOf, groupAfter_none]
  refine ⟨h1, hrun, hrefs, hnames, hexp, ?_⟩
  intro hU k e he
  rw [hexp k, he]
  simp [expectedGroup, joinedGroup, hU]

/-- C2 at the scenario of two occurrences of `x`. -/
theorem C2_group_type_is_join_of_contributions_witness :
    ∃ h1, submitAll sampleStatic sampleEvaluatesTo sampleUnion sampleUnknown
        (NewScope (twoX sampleInt sampleString) none none none).1
        (NewScope (twoX sampleInt sampleString) none none none).2 [some 0, some 1] = some h1 ∧
      (submitLog sampleStatic sampleEvaluatesTo sampleUnion sampleUnknown
        (NewScope (twoX sampleInt sampleString) none none none).1
        (NewScope (twoX sampleInt sampleString) none none none).2
        [some 0, some 1]).map (fun e => e.ref) = [some 0, some 1] ∧
      (submitLog sampleStatic sampleEvaluatesTo sampleUnion sampleUnknown
        (NewScope (twoX sampleInt sampleString) none none none).1
        (NewScope (twoX sampleInt sampleString) none none none).2
        [some 0, some 1]).map (fun e => e.name)
        = [some 0, some 1].map (nameOf sampleStatic (twoX sampleInt sampleString).Variables) ∧
      (∀ k, groupOf h1 (NewScope (twoX sampleInt sampleString) none none none).2 k
        = expectedGroup sampleUnion sampleUnknown
            (logFor k (submitLog sampleStatic sampleEvaluatesTo sampleUnion sampleUnknown
              (NewScope (twoX sampleInt sampleString) none none none).1
              (NewScope (twoX sampleInt sampleString) none none none).2 [some 0, some 1]))) ∧
      ((∀ t, sampleUnion sampleUnknown t = t) → ∀ k e,
        logFor k (submitLog sampleStatic sampleEvaluatesTo sampleUnion sampleUnknown
          (NewScope (twoX sampleInt sampleString) none none none).1
          (NewScope (twoX sampleInt sampleString) none none none).2 [some 0, some 1]) = [e] →
        groupOf h1 (NewScope (twoX sampleInt sampleString) none none none).2 k
          = some ⟨[e.ref], e.contribution⟩) :=
  C2_group_type_is_join_of_contributions sampleStatic sampleEvaluatesTo sampleUnion
    sampleUnknown (twoX sampleInt sampleString) none none none [some 0, some 1] (by decide)

/-- The log and the group of the scenario, evaluated: `x` is logged twice, contributing `Int`
and then `String`, and its group holds both occurrences with type `Int|String`. -/
theorem submitLog_twoX :
    submitLog sampleStatic sampleEvaluatesTo sampleUnion sampleUnknown
        (NewScope (twoX sampleInt sampleString) none none none).1
        (NewScope (twoX sampleInt sampleString) none none none).2 [some 0, some 1]
      = [⟨some "x", some 0, sampleInt⟩, ⟨some "x", some 1, sampleString⟩] ∧
    expectedGroup sampleUnion sampleUnknown
        [⟨some "x", some 0, sampleInt⟩, ⟨some "x", some 1, sampleString⟩]
      = some ⟨[some 0, some 1], sampleUnion sampleInt sampleString⟩ := by
  decide

end RevisedClaims

end PhpAst
